import Mathlib

/-!
# Verification of the `algorithms-in-rust` container library

This file gives a shallow embedding of the two source files of the
repository — `src/data_structures/heap.rs` (a generic binary heap with a
stored comparator) and `src/data_structures/b_tree.rs` (a B-tree
construction stub) — and proves the specification claims about them.

Modelling conventions:
* A Rust `Vec<T>` is a Lean `List α`; indices are `Nat`.
* `usize` arithmetic is `Nat` arithmetic.  The one place the source relies
  on machine wrap-around, `(self.len() / 2).wrapping_sub(1)` in
  `Heap::build_heap`, is modelled with an explicit `% 2 ^ 64`
  (`USIZE = 2 ^ 64`, a 64-bit target).  A companion model with
  overflow-checked (`debug_assert`-style) arithmetic is given at the end to
  exhibit where plain `usize` arithmetic over- or under-flows.
* Indexing `self.items[i]` is modelled by `getE l i = l.getD i default`;
  every use in the source is guarded by an explicit bounds test, and the
  `...C` ("checked") variants below return `none` exactly when an access
  would be out of bounds, which lets us prove that the default of `getD`
  is never consulted.
* A heap value is the record `Heap` with fields `items` and `comparator`,
  matching the Rust struct; the sift routines are defined on the bare
  item list first, as they only touch `self.items`.
-/

/-- Width of the `usize` type on the (64-bit) compilation target. -/
def USIZE : Nat := 2 ^ 64

/-- `getE l i`: the element of `l` at index `i`; models `self.items[i]`.
All source accesses are bounds-guarded, so the `default` is dead code
(this is proved by the checked model at the end of the file). -/
def getE [Inhabited α] (l : List α) (i : Nat) : α :=
  l.getD i default

/-- `listSwap l i j`: models `self.items.swap(i, j)`.  In the source both
indices are always in bounds; out of bounds we return `l` unchanged (the
checked model proves this case is never hit). -/
def listSwap (l : List α) (i j : Nat) : List α :=
  match l[i]?, l[j]? with
  | some a, some b => (l.set i b).set j a
  | _, _ => l

/-- `Heap::left_child_idx`: `idx * 2 + 1`. -/
def left_child_idx (idx : Nat) : Nat := idx * 2 + 1

/-- `Heap::right_child_idx`: `left_child_idx + 1`. -/
def right_child_idx (idx : Nat) : Nat := left_child_idx idx + 1

/-- `Heap::parent_idx`: `Some ((idx - 1) / 2)` for `idx > 0`, else `None`. -/
def parent_idx (idx : Nat) : Option Nat :=
  if idx > 0 then some ((idx - 1) / 2) else none

/-- `Heap::children_present`: `left_child_idx idx < len`. -/
def children_present (l : List α) (idx : Nat) : Bool :=
  decide (left_child_idx idx < l.length)

/-- The body of the `cdx` block in `Heap::heapify_down`: the child of
`idx` most favoured by the comparator (the left child alone when the
right child index is past the end). -/
def chooseChild [Inhabited α] (cmp : α → α → Bool) (l : List α) (idx : Nat) : Nat :=
  if l.length ≤ right_child_idx idx then
    left_child_idx idx
  else if cmp (getE l (left_child_idx idx)) (getE l (right_child_idx idx)) then
    left_child_idx idx
  else
    right_child_idx idx

theorem length_listSwap (l : List α) (i j : Nat) :
    (listSwap l i j).length = l.length := by
  unfold listSwap
  cases hi : l[i]? <;> cases hj : l[j]? <;> simp

theorem chooseChild_gt [Inhabited α] (cmp : α → α → Bool) (l : List α) (idx : Nat) :
    idx < chooseChild cmp l idx := by
  simp only [chooseChild, left_child_idx, right_child_idx]
  split
  · omega
  · split <;> omega

theorem chooseChild_lt [Inhabited α] (cmp : α → α → Bool) (l : List α) (idx : Nat)
    (h : children_present l idx = true) : chooseChild cmp l idx < l.length := by
  unfold children_present at h
  unfold chooseChild right_child_idx
  simp only [decide_eq_true_eq] at h
  split
  · exact h
  · split
    · exact h
    · omega

/-- `Heap::heapify_down`: sift the element at `idx` downward, repeatedly
swapping with the favoured child while the comparator favours that child. -/
def heapify_down [Inhabited α] (cmp : α → α → Bool) (l : List α) (idx : Nat) : List α :=
  if h : children_present l idx then
    if cmp (getE l (chooseChild cmp l idx)) (getE l idx) then
      heapify_down cmp (listSwap l idx (chooseChild cmp l idx)) (chooseChild cmp l idx)
    else l
  else l
termination_by l.length - idx
decreasing_by
  have h1 := chooseChild_gt cmp l idx
  have h2 := chooseChild_lt cmp l idx h
  simp only [length_listSwap]
  omega

/-- `Heap::heapify_up`: sift the element at `idx` upward, repeatedly
swapping with the parent while the comparator favours the element. -/
def heapify_up [Inhabited α] (cmp : α → α → Bool) (l : List α) (idx : Nat) : List α :=
  match h : parent_idx idx with
  | some pdx =>
      if cmp (getE l idx) (getE l pdx) then
        heapify_up cmp (listSwap l idx pdx) pdx
      else l
  | none => l
termination_by idx
decreasing_by
  unfold parent_idx at h
  split at h
  · cases h; omega
  · cases h

/-- The list-level effect of `Heap::add`: push `value`, then sift up from
the new last index `len - 1`. -/
def addL [Inhabited α] (cmp : α → α → Bool) (l : List α) (v : α) : List α :=
  heapify_up cmp (l ++ [v]) ((l ++ [v]).length - 1)

/-- `Vec::swap_remove(0)`: remove and return the element at index `0`,
moving the last element into its place.  `none` iff the vector is empty. -/
def swapRemoveFront (l : List α) : Option (α × List α) :=
  match l with
  | [] => none
  | a :: rest =>
      some (a, match rest.getLast? with
               | none => []
               | some b => b :: rest.dropLast)

/-- The list-level effect of `Heap::pop`: `None` on an empty heap;
otherwise `swap_remove(0)` followed by a sift down from the root when
elements remain. -/
def popL [Inhabited α] (cmp : α → α → Bool) (l : List α) : Option α × List α :=
  if l.length = 0 then (none, l)
  else
    match swapRemoveFront l with
    | none => (none, l)
    | some (x, m) => (some x, if m.length = 0 then m else heapify_down cmp m 0)

/-- `last_parent_idx` in `Heap::build_heap`:
`(self.len() / 2).wrapping_sub(1)` — note the wrap-around at `len < 2`. -/
def last_parent_idx (l : List α) : Nat :=
  (l.length / 2 + (USIZE - 1)) % USIZE

/-- The `for idx in (0..=last_parent_idx).rev()` loop of
`Heap::build_heap`: `build_loop cmp n l` runs `heapify_down` at indices
`n-1, n-2, ..., 0`. -/
def build_loop [Inhabited α] (cmp : α → α → Bool) : Nat → List α → List α
  | 0, l => l
  | n + 1, l => build_loop cmp n (heapify_down cmp l n)

/-- `Heap::build_heap`: the loop runs over `0..=last_parent_idx`, i.e.
`last_parent_idx l + 1` iterations (an inclusive range from `0` is never
empty). -/
def build_heap [Inhabited α] (cmp : α → α → Bool) (l : List α) : List α :=
  build_loop cmp (last_parent_idx l + 1) l

/-- Number of `heapify_down` calls performed by `Heap::build_heap`'s
`for idx in (0..=last_parent_idx).rev()` loop. -/
def buildIterations (l : List α) : Nat := last_parent_idx l + 1

/-! ### Basic facts about `getE` and `listSwap` -/

theorem getE_eq [Inhabited α] (l : List α) (i : Nat) (h : i < l.length) :
    getE l i = l[i] :=
  List.getD_eq_getElem l default h

theorem getE_set_self [Inhabited α] (l : List α) (i : Nat) (a : α) (h : i < l.length) :
    getE (l.set i a) i = a := by
  rw [getE_eq _ _ (by simpa using h)]
  exact List.getElem_set_self _

theorem getE_set_ne [Inhabited α] (l : List α) (i j : Nat) (a : α) (h : i ≠ j) :
    getE (l.set i a) j = getE l j := by
  by_cases hj : j < l.length
  · rw [getE_eq _ _ (by simpa using hj), getE_eq _ _ hj]
    exact List.getElem_set_ne h _
  · rw [getE, getE, List.getD_eq_default _ _ (by simp only [List.length_set]; omega),
      List.getD_eq_default _ _ (by omega)]

theorem listSwap_eq [Inhabited α] (l : List α) (i j : Nat)
    (hi : i < l.length) (hj : j < l.length) :
    listSwap l i j = (l.set i (getE l j)).set j (getE l i) := by
  unfold listSwap
  rw [List.getElem?_eq_getElem hi, List.getElem?_eq_getElem hj]
  rw [getE_eq _ _ hi, getE_eq _ _ hj]

theorem getE_listSwap_fst [Inhabited α] (l : List α) (i j : Nat)
    (hi : i < l.length) (hj : j < l.length) :
    getE (listSwap l i j) i = getE l j := by
  rw [listSwap_eq l i j hi hj]
  by_cases hij : i = j
  · subst hij; exact getE_set_self _ _ _ (by simpa using hi)
  · rw [getE_set_ne _ _ _ _ (Ne.symm hij), getE_set_self _ _ _ hi]

theorem getE_listSwap_snd [Inhabited α] (l : List α) (i j : Nat)
    (hi : i < l.length) (hj : j < l.length) :
    getE (listSwap l i j) j = getE l i := by
  rw [listSwap_eq l i j hi hj]
  exact getE_set_self _ _ _ (by simpa using hj)

theorem getE_listSwap_other [Inhabited α] (l : List α) (i j k : Nat)
    (hk1 : k ≠ i) (hk2 : k ≠ j) :
    getE (listSwap l i j) k = getE l k := by
  unfold listSwap
  cases hi : l[i]? <;> cases hj : l[j]? <;> try rfl
  rw [getE_set_ne _ _ _ _ (Ne.symm hk2), getE_set_ne _ _ _ _ (Ne.symm hk1)]

theorem getElem_cons_set_perm :
    ∀ (t : List α) (k : Nat) (hk : k < t.length) (a : α),
      (t[k] :: t.set k a).Perm (a :: t)
  | c :: t', 0, _, a => List.Perm.swap a c t'
  | c :: t', k + 1, hk, a => by
      have hk' : k < t'.length := by simpa using hk
      have he : (c :: t')[k + 1] :: (c :: t').set (k + 1) a
          = t'[k] :: c :: t'.set k a := by simp
      rw [he]
      exact (List.Perm.swap c t'[k] (t'.set k a)).trans
        ((List.Perm.cons c (getElem_cons_set_perm t' k hk' a)).trans
          (List.Perm.swap a c t'))

theorem set_set_perm :
    ∀ (l : List α) (i j : Nat) (hi : i < l.length) (hj : j < l.length),
      ((l.set i l[j]).set j l[i]).Perm l
  | a :: t, 0, 0, _, _ => by simp
  | a :: t, 0, n + 1, hi, hj => by
      have hn : n < t.length := by simpa using hj
      have he : ((a :: t).set 0 (a :: t)[n + 1]).set (n + 1) (a :: t)[0]
          = t[n] :: t.set n a := by simp
      rw [he]
      exact getElem_cons_set_perm t n hn a
  | a :: t, m + 1, 0, hi, hj => by
      have hm : m < t.length := by simpa using hi
      have he : ((a :: t).set (m + 1) (a :: t)[0]).set 0 (a :: t)[m + 1]
          = t[m] :: t.set m a := by simp
      rw [he]
      exact getElem_cons_set_perm t m hm a
  | a :: t, m + 1, n + 1, hi, hj => by
      have hm : m < t.length := by simpa using hi
      have hn : n < t.length := by simpa using hj
      have he : ((a :: t).set (m + 1) (a :: t)[n + 1]).set (n + 1) (a :: t)[m + 1]
          = a :: (t.set m t[n]).set n t[m] := by simp
      rw [he]
      exact List.Perm.cons a (set_set_perm t m n hm hn)

theorem listSwap_perm (l : List α) (i j : Nat) : (listSwap l i j).Perm l := by
  unfold listSwap
  cases hi : l[i]? with
  | none => exact List.Perm.refl l
  | some a =>
    cases hj : l[j]? with
    | none => exact List.Perm.refl l
    | some b =>
      have hi' : i < l.length := by
        by_contra h
        rw [List.getElem?_eq_none (by omega)] at hi
        exact Option.noConfusion hi
      have hj' : j < l.length := by
        by_contra h
        rw [List.getElem?_eq_none (by omega)] at hj
        exact Option.noConfusion hj
      have ha : a = l[i] := by
        rw [List.getElem?_eq_getElem hi'] at hi; exact (Option.some.inj hi).symm
      have hb : b = l[j] := by
        rw [List.getElem?_eq_getElem hj'] at hj; exact (Option.some.inj hj).symm
      subst ha; subst hb
      exact set_set_perm l i j hi' hj'

/-! ### Length and multiset preservation of the operations -/

theorem length_heapify_down [Inhabited α] (cmp : α → α → Bool) (l : List α) (idx : Nat) :
    (heapify_down cmp l idx).length = l.length := by
  induction l, idx using heapify_down.induct cmp with
  | case1 l idx h1 h2 ih =>
      rw [heapify_down]
      simp only [h1, h2, dite_true, if_true]
      rw [ih, length_listSwap]
  | case2 l idx h1 h2 =>
      rw [heapify_down]
      simp only [h1, h2, dite_true, if_false]
      simp [h2]
  | case3 l idx h1 =>
      rw [heapify_down]
      simp [h1]

theorem perm_heapify_down [Inhabited α] (cmp : α → α → Bool) (l : List α) (idx : Nat) :
    (heapify_down cmp l idx).Perm l := by
  induction l, idx using heapify_down.induct cmp with
  | case1 l idx h1 h2 ih =>
      rw [heapify_down]
      simp only [h1, h2, dite_true, if_true]
      exact ih.trans (listSwap_perm l idx (chooseChild cmp l idx))
  | case2 l idx h1 h2 =>
      rw [heapify_down]
      simp [h1, h2]
  | case3 l idx h1 =>
      rw [heapify_down]
      simp [h1]

theorem length_heapify_up [Inhabited α] (cmp : α → α → Bool) (l : List α) (idx : Nat) :
    (heapify_up cmp l idx).length = l.length := by
  induction l, idx using heapify_up.induct cmp with
  | case1 l idx pdx hp h2 ih =>
      rw [heapify_up, hp]
      simp only [h2, if_true]
      rw [ih, length_listSwap]
  | case2 l idx pdx hp h2 =>
      rw [heapify_up, hp]
      simp [h2]
  | case3 l idx hp =>
      rw [heapify_up, hp]

theorem perm_heapify_up [Inhabited α] (cmp : α → α → Bool) (l : List α) (idx : Nat) :
    (heapify_up cmp l idx).Perm l := by
  induction l, idx using heapify_up.induct cmp with
  | case1 l idx pdx hp h2 ih =>
      rw [heapify_up, hp]
      simp only [h2, if_true]
      exact ih.trans (listSwap_perm l idx pdx)
  | case2 l idx pdx hp h2 =>
      rw [heapify_up, hp]
      simp [h2]
  | case3 l idx hp =>
      rw [heapify_up, hp]

theorem length_build_loop [Inhabited α] (cmp : α → α → Bool) (n : Nat) (l : List α) :
    (build_loop cmp n l).length = l.length := by
  induction n generalizing l with
  | zero => rfl
  | succ n ih => rw [build_loop, ih, length_heapify_down]

theorem perm_build_loop [Inhabited α] (cmp : α → α → Bool) (n : Nat) (l : List α) :
    (build_loop cmp n l).Perm l := by
  induction n generalizing l with
  | zero => exact List.Perm.refl l
  | succ n ih => exact (ih _).trans (perm_heapify_down cmp l n)

theorem perm_build_heap [Inhabited α] (cmp : α → α → Bool) (l : List α) :
    (build_heap cmp l).Perm l :=
  perm_build_loop cmp _ l

theorem length_addL [Inhabited α] (cmp : α → α → Bool) (l : List α) (v : α) :
    (addL cmp l v).length = l.length + 1 := by
  rw [addL, length_heapify_up]
  simp

theorem perm_addL [Inhabited α] (cmp : α → α → Bool) (l : List α) (v : α) :
    (addL cmp l v).Perm (v :: l) := by
  rw [addL]
  exact (perm_heapify_up cmp _ _).trans (List.perm_append_singleton v l)

/-! ### Facts about `swapRemoveFront` and `popL` -/

theorem swapRemoveFront_nil : swapRemoveFront ([] : List α) = none := rfl

theorem swapRemoveFront_cons (a : α) (rest : List α) :
    swapRemoveFront (a :: rest)
      = some (a, match rest.getLast? with
                 | none => []
                 | some b => b :: rest.dropLast) := rfl

theorem swapRemoveFront_eq_some (l : List α) (hne : l ≠ []) :
    ∃ x m, swapRemoveFront l = some (x, m) ∧
      m.length + 1 = l.length ∧ (x :: m).Perm l ∧ x = l.head hne := by
  match l with
  | [a] => exact ⟨a, [], rfl, rfl, List.Perm.refl _, rfl⟩
  | a :: c :: t =>
      have hne2 : (c :: t) ≠ [] := by simp
      refine ⟨a, (c :: t).getLast hne2 :: (c :: t).dropLast, ?_, ?_, ?_, rfl⟩
      · rw [swapRemoveFront_cons, List.getLast?_eq_getLast_of_ne_nil hne2]
      · simp
      · refine List.Perm.cons a ?_
        have p1 : ((c :: t).getLast hne2 :: (c :: t).dropLast).Perm
            ((c :: t).dropLast ++ [(c :: t).getLast hne2]) :=
          (List.perm_append_singleton _ _).symm
        rw [List.dropLast_append_getLast hne2] at p1
        exact p1

/-! ### Strict weak orderings

`IsSWO cmp` is the caller contract of the spec: the comparator is
irreflexive and transitive, and incomparability is transitive. -/

def IsSWO (cmp : α → α → Bool) : Prop :=
  (∀ a, cmp a a = false) ∧
  (∀ a b c, cmp a b = true → cmp b c = true → cmp a c = true) ∧
  (∀ a b c, cmp a b = false ∧ cmp b a = false → cmp b c = false ∧ cmp c b = false →
    cmp a c = false ∧ cmp c a = false)

theorem swo_asymm {cmp : α → α → Bool} (h : IsSWO cmp) {a b : α}
    (hab : cmp a b = true) : cmp b a = false := by
  by_contra hba
  have hba' : cmp b a = true := by
    cases hb : cmp b a
    · exact absurd hb hba
    · rfl
  exact absurd (h.2.1 a b a hab hba') (by simp [h.1 a])

theorem swo_le_total {cmp : α → α → Bool} (h : IsSWO cmp) (a b : α) :
    cmp a b = false ∨ cmp b a = false := by
  cases hab : cmp a b
  · exact Or.inl rfl
  · exact Or.inr (swo_asymm h hab)

/-- Transitivity of the "not favoured over" relation: if `a` is not
favoured over `b` and `b` is not favoured over `c`, then `a` is not
favoured over `c`.  (Here written with the comparator arguments in source
order: `cmp b a = false` means "b may sit above a".) -/
theorem swo_le_trans {cmp : α → α → Bool} (h : IsSWO cmp) {a b c : α}
    (h1 : cmp b a = false) (h2 : cmp c b = false) : cmp c a = false := by
  by_contra hca
  have hca' : cmp c a = true := by
    cases hc : cmp c a
    · exact absurd hc hca
    · rfl
  cases hab : cmp a b with
  | true => exact absurd (h.2.1 c a b hca' hab) (by simp [h2])
  | false =>
    cases hbc : cmp b c with
    | true => exact absurd (h.2.1 b c a hbc hca') (by simp [h1])
    | false =>
      have hinc := h.2.2 a b c ⟨hab, h1⟩ ⟨hbc, h2⟩
      exact absurd hca' (by simp [hinc.2])

/-! ### The heap property -/

/-- The heap property of the spec: for every non-root index `i` with
parent `p = (i-1)/2`, `comparator(items[i], items[p])` is false. -/
def HeapInv [Inhabited α] (cmp : α → α → Bool) (l : List α) : Prop :=
  ∀ i, i < l.length → 0 < i → cmp (getE l i) (getE l ((i - 1) / 2)) = false

/-! ### The subtree relation on array indices

`inSub idx j` holds when index `j` lies in the subtree rooted at `idx`
of the implicit complete binary tree (left child `2i+1`, right child
`2i+2`, parent `(i-1)/2`). -/

def inSub (idx : Nat) (j : Nat) : Bool :=
  if j = idx then true
  else if j ≤ idx then false
  else inSub idx ((j - 1) / 2)
termination_by j
decreasing_by omega

theorem inSub_self (idx : Nat) : inSub idx idx = true := by
  rw [inSub]; simp

theorem inSub_le {idx j : Nat} (h : inSub idx j = true) : idx ≤ j := by
  induction j using Nat.strong_induction_on with
  | _ j ih =>
    rw [inSub] at h
    by_cases h1 : j = idx
    · omega
    · simp only [h1, if_false] at h
      by_cases h2 : j ≤ idx
      · simp [h2] at h
      · omega

theorem inSub_parent {idx j : Nat} (h : inSub idx j = true) (hne : j ≠ idx) :
    idx < j ∧ inSub idx ((j - 1) / 2) = true := by
  rw [inSub] at h
  simp only [hne, if_false] at h
  by_cases h2 : j ≤ idx
  · simp [h2] at h
  · simp only [h2, if_false] at h
    exact ⟨by omega, h⟩

theorem inSub_of_parent_in {idx j : Nat} (h : inSub idx ((j - 1) / 2) = true)
    (hj : 0 < j) : inSub idx j = true := by
  have hle : idx ≤ (j - 1) / 2 := inSub_le h
  have hlt : (j - 1) / 2 < j := by omega
  have hne : j ≠ idx := by omega
  have hgt : ¬ j ≤ idx := by omega
  rw [inSub]
  simp [hne, hgt, h]

theorem not_inSub_of_lt {idx j : Nat} (h : j < idx) : inSub idx j = false := by
  rw [inSub]
  have h1 : j ≠ idx := by omega
  have h2 : j ≤ idx := by omega
  simp [h1, h2]

theorem inSub_compare {a b j : Nat} (ha : inSub a j = true) (hb : inSub b j = true) :
    inSub a b = true ∨ inSub b a = true := by
  induction j using Nat.strong_induction_on with
  | _ j ih =>
    by_cases hja : j = a
    · subst hja; exact Or.inr hb
    · by_cases hjb : j = b
      · subst hjb; exact Or.inl ha
      · obtain ⟨hlt1, hpa⟩ := inSub_parent ha hja
        obtain ⟨hlt2, hpb⟩ := inSub_parent hb hjb
        exact ih ((j - 1) / 2) (by omega) hpa hpb

theorem inSub_split {idx j : Nat} (h : inSub idx j = true) (hne : j ≠ idx) :
    inSub (2 * idx + 1) j = true ∨ inSub (2 * idx + 2) j = true := by
  induction j using Nat.strong_induction_on with
  | _ j ih =>
    obtain ⟨hlt, hpar⟩ := inSub_parent h hne
    by_cases hp : (j - 1) / 2 = idx
    · have : j = 2 * idx + 1 ∨ j = 2 * idx + 2 := by omega
      cases this with
      | inl h1 => exact Or.inl (h1 ▸ inSub_self _)
      | inr h2 => exact Or.inr (h2 ▸ inSub_self _)
    · have hj1 : 0 < j := by omega
      cases ih ((j - 1) / 2) (by omega) hpar hp with
      | inl hl => exact Or.inl (inSub_of_parent_in hl hj1)
      | inr hr => exact Or.inr (inSub_of_parent_in hr hj1)

theorem inSub_sibling_disjoint {i j : Nat}
    (h1 : inSub (2 * i + 1) j = true) (h2 : inSub (2 * i + 2) j = true) : False := by
  cases inSub_compare h1 h2 with
  | inl h =>
      obtain ⟨hlt, hpar⟩ := inSub_parent h (by omega)
      have : (2 * i + 2 - 1) / 2 = i := by omega
      rw [this] at hpar
      have := inSub_le hpar
      omega
  | inr h =>
      have := inSub_le h
      omega

theorem inSub_trans {a b j : Nat} (h1 : inSub a b = true) (h2 : inSub b j = true) :
    inSub a j = true := by
  induction j using Nat.strong_induction_on with
  | _ j ih =>
    by_cases hjb : j = b
    · subst hjb; exact h1
    · obtain ⟨hlt, hp⟩ := inSub_parent h2 hjb
      have hab := inSub_le h1
      have hres := ih ((j - 1) / 2) (by omega) hp
      exact inSub_of_parent_in hres (by omega)

theorem chooseChild_cases [Inhabited α] (cmp : α → α → Bool) (l : List α) (idx : Nat) :
    chooseChild cmp l idx = 2 * idx + 1 ∨ chooseChild cmp l idx = 2 * idx + 2 := by
  simp only [chooseChild, left_child_idx, right_child_idx]
  split
  · left; omega
  · split
    · left; omega
    · right; omega

theorem chooseChild_par [Inhabited α] (cmp : α → α → Bool) (l : List α) (idx : Nat) :
    (chooseChild cmp l idx - 1) / 2 = idx := by
  rcases chooseChild_cases cmp l idx with h | h <;> omega

theorem inSub_chooseChild [Inhabited α] (cmp : α → α → Bool) (l : List α) (idx : Nat) :
    inSub idx (chooseChild cmp l idx) = true := by
  have hgt := chooseChild_gt cmp l idx
  refine inSub_of_parent_in ?_ (by omega)
  rw [chooseChild_par]
  exact inSub_self idx

/-- Positions outside the subtree rooted at `idx` are untouched by
`heapify_down`. -/
theorem getE_heapify_down_outside [Inhabited α] (cmp : α → α → Bool) (l : List α) (idx : Nat) :
    ∀ k, inSub idx k = false → getE (heapify_down cmp l idx) k = getE l k := by
  induction l, idx using heapify_down.induct cmp with
  | case1 l idx h1 h2 ih =>
      intro k hk
      rw [heapify_down]
      simp only [h1, h2, dite_true, if_true]
      have hsub : inSub idx (chooseChild cmp l idx) = true := inSub_chooseChild cmp l idx
      have hknotc : inSub (chooseChild cmp l idx) k = false := by
        cases hc : inSub (chooseChild cmp l idx) k
        · rfl
        · exact absurd (inSub_trans hsub hc) (by simp [hk])
      rw [ih k hknotc]
      have hki : k ≠ idx := by
        intro he; subst he; rw [inSub_self] at hk; cases hk
      have hkc : k ≠ chooseChild cmp l idx := by
        intro he; subst he; rw [hsub] at hk; cases hk
      exact getE_listSwap_other l idx _ k hki hkc
  | case2 l idx h1 h2 =>
      intro k _
      rw [heapify_down]
      simp [h1, h2]
  | case3 l idx h1 =>
      intro k _
      rw [heapify_down]
      simp [h1]

/-- Every value sitting in the subtree rooted at `idx` after
`heapify_down` was already in that subtree before. -/
theorem heapify_down_values [Inhabited α] (cmp : α → α → Bool) (l : List α) (idx : Nat) :
    ∀ k, inSub idx k = true → k < l.length →
      ∃ k0, inSub idx k0 = true ∧ k0 < l.length ∧
        getE (heapify_down cmp l idx) k = getE l k0 := by
  induction l, idx using heapify_down.induct cmp with
  | case1 l idx h1 h2 ih =>
      intro k hk hklen
      have hclt : chooseChild cmp l idx < l.length := chooseChild_lt cmp l idx h1
      have hcgt : idx < chooseChild cmp l idx := chooseChild_gt cmp l idx
      have hidxlt : idx < l.length := by omega
      have hsub : inSub idx (chooseChild cmp l idx) = true := inSub_chooseChild cmp l idx
      rw [heapify_down]
      simp only [h1, h2, dite_true, if_true]
      by_cases hkc : inSub (chooseChild cmp l idx) k = true
      · obtain ⟨k0, hk0sub, hk0len, hval⟩ :=
          ih k hkc (by rw [length_listSwap]; exact hklen)
        rw [length_listSwap] at hk0len
        by_cases hk0c : k0 = chooseChild cmp l idx
        · subst hk0c
          rw [getE_listSwap_snd l idx _ hidxlt hclt] at hval
          exact ⟨idx, inSub_self idx, hidxlt, hval⟩
        · have hk0i : k0 ≠ idx := by
            have := inSub_le hk0sub; omega
          rw [getE_listSwap_other l idx _ k0 hk0i hk0c] at hval
          exact ⟨k0, inSub_trans hsub hk0sub, hk0len, hval⟩
      · have hkc' : inSub (chooseChild cmp l idx) k = false := by
          cases h : inSub (chooseChild cmp l idx) k
          · rfl
          · exact absurd h hkc
        rw [getE_heapify_down_outside cmp _ _ k hkc']
        by_cases hki : k = idx
        · rw [hki, getE_listSwap_fst l _ _ hidxlt hclt]
          exact ⟨chooseChild cmp l idx, hsub, hclt, rfl⟩
        · have hkcc : k ≠ chooseChild cmp l idx := by
            intro he; subst he; rw [inSub_self] at hkc'; cases hkc'
          rw [getE_listSwap_other l idx _ k hki hkcc]
          exact ⟨k, hk, hklen, rfl⟩
  | case2 l idx h1 h2 =>
      intro k hk hklen
      rw [heapify_down]
      simp only [h1, h2, dite_true, if_false]
      exact ⟨k, hk, hklen, by simp [h2]⟩
  | case3 l idx h1 =>
      intro k hk hklen
      rw [heapify_down]
      simp only [h1, dite_false]
      exact ⟨k, hk, hklen, rfl⟩

/-- Under the heap property restricted to the subtree rooted at `r`, the
comparator never favours a subtree element over the subtree root. -/
theorem subtree_root_min [Inhabited α] {cmp : α → α → Bool} (hswo : IsSWO cmp)
    (l : List α) (r : Nat) (hr : r < l.length)
    (hInv : ∀ j, j < l.length → inSub r j = true → j ≠ r →
      cmp (getE l j) (getE l ((j - 1) / 2)) = false) :
    ∀ j, j < l.length → inSub r j = true → cmp (getE l j) (getE l r) = false := by
  intro j
  induction j using Nat.strong_induction_on with
  | _ j ih =>
    intro hj hsub
    by_cases hjr : j = r
    · rw [hjr]; exact hswo.1 _
    · obtain ⟨hlt, hpar⟩ := inSub_parent hsub hjr
      have hple : r ≤ (j - 1) / 2 := inSub_le hpar
      have hplt : (j - 1) / 2 < j := by omega
      have h1 := ih ((j - 1) / 2) hplt (by omega) hpar
      have h2 := hInv j hj hsub hjr
      exact swo_le_trans hswo h1 h2

/-- If `chooseChild` picks the right child, the right child index is in
bounds (otherwise the first branch would have picked the left child). -/
theorem chooseChild_right_lt [Inhabited α] (cmp : α → α → Bool) (l : List α) (idx : Nat)
    (hc : chooseChild cmp l idx = right_child_idx idx) :
    right_child_idx idx < l.length := by
  by_contra hcon
  rw [chooseChild, if_pos (Nat.le_of_not_lt hcon)] at hc
  simp only [right_child_idx, left_child_idx] at hc
  omega

/-- When both children are in bounds, `chooseChild` picks the left child
iff the comparator favours it over the right child. -/
theorem chooseChild_spec [Inhabited α] (cmp : α → α → Bool) (l : List α) (idx : Nat)
    (h : right_child_idx idx < l.length) :
    (chooseChild cmp l idx = left_child_idx idx ∧
       cmp (getE l (left_child_idx idx)) (getE l (right_child_idx idx)) = true) ∨
    (chooseChild cmp l idx = right_child_idx idx ∧
       cmp (getE l (left_child_idx idx)) (getE l (right_child_idx idx)) = false) := by
  rw [chooseChild, if_neg (Nat.not_le.mpr h)]
  cases hcm : cmp (getE l (left_child_idx idx)) (getE l (right_child_idx idx))
  · right
    simp
  · left
    simp

/-- The sibling of the chosen child is never favoured over the chosen
child. -/
theorem chooseChild_sib [Inhabited α] {cmp : α → α → Bool} (hswo : IsSWO cmp)
    (l : List α) (idx sib : Nat)
    (hsib : sib = 2 * idx + 1 ∨ sib = 2 * idx + 2)
    (hne : sib ≠ chooseChild cmp l idx) (hlen : sib < l.length) :
    cmp (getE l sib) (getE l (chooseChild cmp l idx)) = false := by
  have hl : left_child_idx idx = 2 * idx + 1 := by
    simp only [left_child_idx]; omega
  have hr : right_child_idx idx = 2 * idx + 2 := by
    simp only [right_child_idx, left_child_idx]; omega
  have hcc := chooseChild_cases cmp l idx
  have hrlen : right_child_idx idx < l.length := by
    rcases hsib with h1 | h1
    · have hcr : chooseChild cmp l idx = right_child_idx idx := by
        rw [hr]; omega
      exact chooseChild_right_lt cmp l idx hcr
    · omega
  rcases chooseChild_spec cmp l idx hrlen with ⟨hcl, hfav⟩ | ⟨hcr, hfav⟩
  · have hs : sib = right_child_idx idx := by
      rw [hl] at hcl; rw [hr]; omega
    rw [hs, hcl]
    exact swo_asymm hswo hfav
  · have hs : sib = left_child_idx idx := by
      rw [hr] at hcr; rw [hl]; omega
    rw [hs, hcr]
    exact hfav

/-- Main correctness of `heapify_down`: if the heap property holds at
every edge of the subtree rooted at `idx` except possibly the edges from
`idx` to its children, then after `heapify_down cmp l idx` it holds on
every edge of that subtree.  Positions outside the subtree are untouched
(`getE_heapify_down_outside`). -/
theorem heapify_down_inv [Inhabited α] {cmp : α → α → Bool} (hswo : IsSWO cmp) :
    ∀ (l : List α) (idx : Nat),
      (∀ j, j < l.length → inSub idx j = true → j ≠ idx → (j - 1) / 2 ≠ idx →
        cmp (getE l j) (getE l ((j - 1) / 2)) = false) →
      ∀ j, j < l.length → inSub idx j = true → j ≠ idx →
        cmp (getE (heapify_down cmp l idx) j)
          (getE (heapify_down cmp l idx) ((j - 1) / 2)) = false := by
  intro l idx
  induction l, idx using heapify_down.induct cmp with
  | case1 l idx h1 h2 ih =>
      intro Hin j hjlen hjsub hjne
      have hclt : chooseChild cmp l idx < l.length := chooseChild_lt cmp l idx h1
      have hcgt : idx < chooseChild cmp l idx := chooseChild_gt cmp l idx
      have hidxlt : idx < l.length := by omega
      have hcpar : (chooseChild cmp l idx - 1) / 2 = idx := chooseChild_par cmp l idx
      have hcsub : inSub idx (chooseChild cmp l idx) = true := inSub_chooseChild cmp l idx
      have hjge : idx ≤ j := inSub_le hjsub
      rw [heapify_down]
      simp only [h1, h2, dite_true, if_true]
      have HinRec : ∀ j', j' < (listSwap l idx (chooseChild cmp l idx)).length →
          inSub (chooseChild cmp l idx) j' = true → j' ≠ chooseChild cmp l idx →
          (j' - 1) / 2 ≠ chooseChild cmp l idx →
          cmp (getE (listSwap l idx (chooseChild cmp l idx)) j')
            (getE (listSwap l idx (chooseChild cmp l idx)) ((j' - 1) / 2)) = false := by
        intro j' hj'len hj'sub hj'ne hj'parne
        rw [length_listSwap] at hj'len
        have hj'ge : chooseChild cmp l idx ≤ j' := inSub_le hj'sub
        obtain ⟨hj'gt, hj'parsub⟩ := inSub_parent hj'sub hj'ne
        have hparge : chooseChild cmp l idx ≤ (j' - 1) / 2 := inSub_le hj'parsub
        rw [getE_listSwap_other l idx _ j' (by omega) hj'ne,
          getE_listSwap_other l idx _ _ (by omega) hj'parne]
        exact Hin j' hj'len (inSub_trans hcsub hj'sub) (by omega) (by omega)
      have IH := ih HinRec
      have hidxout : inSub (chooseChild cmp l idx) idx = false := not_inSub_of_lt hcgt
      have eidx : getE (heapify_down cmp (listSwap l idx (chooseChild cmp l idx))
            (chooseChild cmp l idx)) idx = getE l (chooseChild cmp l idx) := by
        rw [getE_heapify_down_outside cmp _ _ idx hidxout]
        exact getE_listSwap_fst l idx _ hidxlt hclt
      by_cases hjc : inSub (chooseChild cmp l idx) j = true
      · by_cases hjceq : j = chooseChild cmp l idx
        · rw [hjceq, hcpar, eidx]
          obtain ⟨k0, hk0sub, hk0len, hk0val⟩ :=
            heapify_down_values cmp (listSwap l idx (chooseChild cmp l idx))
              (chooseChild cmp l idx) (chooseChild cmp l idx) (inSub_self _)
              (by rw [length_listSwap]; exact hclt)
          rw [length_listSwap] at hk0len
          rw [hk0val]
          by_cases hk0c : k0 = chooseChild cmp l idx
          · rw [hk0c, getE_listSwap_snd l idx _ hidxlt hclt]
            exact swo_asymm hswo h2
          · have hk0ge := inSub_le hk0sub
            rw [getE_listSwap_other l idx _ k0 (by omega) hk0c]
            refine subtree_root_min hswo l (chooseChild cmp l idx) hclt ?_ k0 hk0len hk0sub
            intro j' hj'len hj'sub hj'ne
            obtain ⟨hgt', hpar'⟩ := inSub_parent hj'sub hj'ne
            have hge' := inSub_le hpar'
            exact Hin j' hj'len (inSub_trans hcsub hj'sub) (by omega) (by omega)
        · exact IH j (by rw [length_listSwap]; exact hjlen) hjc hjceq
      · have hjc' : inSub (chooseChild cmp l idx) j = false := by
          cases h : inSub (chooseChild cmp l idx) j
          · rfl
          · exact absurd h hjc
        have hjnec : j ≠ chooseChild cmp l idx := by
          intro he; rw [he, inSub_self] at hjc'; cases hjc'
        by_cases hjpar : (j - 1) / 2 = idx
        · have hjchild : j = 2 * idx + 1 ∨ j = 2 * idx + 2 := by omega
          rw [hjpar, eidx]
          rw [getE_heapify_down_outside cmp _ _ j hjc',
            getE_listSwap_other l idx _ j (by omega) hjnec]
          exact chooseChild_sib hswo l idx j hjchild hjnec hjlen
        · obtain ⟨hjgt, hjparsub⟩ := inSub_parent hjsub hjne
          have hparnotc : inSub (chooseChild cmp l idx) ((j - 1) / 2) = false := by
            cases hp : inSub (chooseChild cmp l idx) ((j - 1) / 2)
            · rfl
            · have hup := inSub_of_parent_in hp (by omega)
              rw [hup] at hjc'; cases hjc'
          have hparnec : (j - 1) / 2 ≠ chooseChild cmp l idx := by
            intro he; rw [he, inSub_self] at hparnotc; cases hparnotc
          have hparge := inSub_le hjparsub
          rw [getE_heapify_down_outside cmp _ _ j hjc',
            getE_listSwap_other l idx _ j (by omega) hjnec,
            getE_heapify_down_outside cmp _ _ _ hparnotc,
            getE_listSwap_other l idx _ _ hjpar hparnec]
          exact Hin j hjlen hjsub hjne hjpar
  | case2 l idx h1 h2 =>
      intro Hin j hjlen hjsub hjne
      have hjge : idx ≤ j := inSub_le hjsub
      rw [heapify_down]
      simp only [h1, dite_true]
      rw [if_neg h2]
      by_cases hjpar : (j - 1) / 2 = idx
      · have hjchild : j = 2 * idx + 1 ∨ j = 2 * idx + 2 := by omega
        rw [hjpar]
        by_cases hjc : j = chooseChild cmp l idx
        · rw [hjc]
          simpa using h2
        · have hsibfav := chooseChild_sib hswo l idx j hjchild hjc hjlen
          have hcfav : cmp (getE l (chooseChild cmp l idx)) (getE l idx) = false := by
            simpa using h2
          exact swo_le_trans hswo hcfav hsibfav
      · exact Hin j hjlen hjsub hjne hjpar
  | case3 l idx h1 =>
      intro Hin j hjlen hjsub hjne
      have hjge : idx ≤ j := inSub_le hjsub
      rw [heapify_down]
      simp only [h1, dite_false]
      by_cases hjpar : (j - 1) / 2 = idx
      · exfalso
        simp only [children_present, left_child_idx, decide_eq_true_eq] at h1
        omega
      · exact Hin j hjlen hjsub hjne hjpar

theorem inSub_zero (j : Nat) : inSub 0 j = true := by
  induction j using Nat.strong_induction_on with
  | _ j ih =>
    by_cases hj : j = 0
    · rw [hj]; exact inSub_self 0
    · exact inSub_of_parent_in (ih ((j - 1) / 2) (by omega)) (by omega)

/-- `heapify_down` at the root restores the full heap property from a heap
whose only possibly-violated edges are those out of the root. -/
theorem heapify_down_root [Inhabited α] {cmp : α → α → Bool} (hswo : IsSWO cmp)
    (l : List α)
    (Hin : ∀ j, j < l.length → 0 < j → (j - 1) / 2 ≠ 0 →
      cmp (getE l j) (getE l ((j - 1) / 2)) = false) :
    HeapInv cmp (heapify_down cmp l 0) := by
  intro i hi hi0
  rw [length_heapify_down] at hi
  exact heapify_down_inv hswo l 0
    (fun j hj hsub hne hpar => Hin j hj (by omega) hpar)
    i hi (inSub_zero i) (by omega)

theorem getLast_cons_dropLast_perm (l : List α) (hne : l ≠ []) :
    (l.getLast hne :: l.dropLast).Perm l := by
  have p1 : (l.getLast hne :: l.dropLast).Perm (l.dropLast ++ [l.getLast hne]) :=
    (List.perm_append_singleton _ _).symm
  rw [List.dropLast_append_getLast hne] at p1
  exact p1

theorem getE_swapRemove [Inhabited α] (a : α) (rest : List α) (hne : rest ≠ [])
    (k : Nat) (h1 : 1 ≤ k) (hk : k < rest.length) :
    getE (rest.getLast hne :: rest.dropLast) k = getE (a :: rest) k := by
  have hdl : rest.dropLast.length = rest.length - 1 := by simp
  have hlen : (rest.getLast hne :: rest.dropLast).length = rest.length := by
    simp only [List.length_cons]; omega
  rw [getE_eq _ _ (by simp only [List.length_cons]; omega : k < (a :: rest).length),
      getE_eq _ _ (by rw [hlen]; exact hk)]
  obtain ⟨k2, rfl⟩ : ∃ k2, k = k2 + 1 := ⟨k - 1, by omega⟩
  simp only [List.getElem_cons_succ]
  exact List.getElem_dropLast rest k2 (by omega)

theorem popL_nil [Inhabited α] (cmp : α → α → Bool) :
    popL cmp ([] : List α) = (none, []) := rfl

theorem popL_one [Inhabited α] (cmp : α → α → Bool) (a : α) :
    popL cmp [a] = (some a, []) := rfl

theorem popL_cons2 [Inhabited α] (cmp : α → α → Bool) (a c : α) (t : List α) :
    popL cmp (a :: c :: t)
      = (some a, heapify_down cmp
          ((c :: t).getLast (by simp) :: (c :: t).dropLast) 0) := by
  rw [popL]
  rw [if_neg (by simp)]
  rw [swapRemoveFront_cons,
    List.getLast?_eq_getLast_of_ne_nil (by simp : (c :: t) ≠ [])]
  have hlen : ((c :: t).getLast (by simp) :: (c :: t).dropLast).length ≠ 0 := by
    simp
  simp only []
  rw [if_neg hlen]

/-- `pop` on a non-empty heap returns the root and a one-shorter
permutation of the remaining elements. -/
theorem popL_spec [Inhabited α] (cmp : α → α → Bool) (l : List α) (hne : l ≠ []) :
    ∃ m, popL cmp l = (some (getE l 0), m) ∧ m.length + 1 = l.length ∧
      ((getE l 0 :: m)).Perm l := by
  match l with
  | [a] => exact ⟨[], popL_one cmp a, rfl, List.Perm.refl _⟩
  | a :: c :: t =>
      have hne2 : (c :: t) ≠ [] := by simp
      refine ⟨heapify_down cmp ((c :: t).getLast hne2 :: (c :: t).dropLast) 0,
        ?_, ?_, ?_⟩
      · rw [popL_cons2]
        rfl
      · rw [length_heapify_down]
        simp
      · have e0 : getE (a :: c :: t) 0 = a := rfl
        rw [e0]
        refine List.Perm.cons a ?_
        exact (perm_heapify_down cmp _ 0).trans (getLast_cons_dropLast_perm (c :: t) hne2)

theorem popL_fst_none [Inhabited α] (cmp : α → α → Bool) (l : List α)
    (h : (popL cmp l).1 = none) : l = [] := by
  cases l with
  | nil => rfl
  | cons a rest =>
      obtain ⟨m, hm, -, -⟩ := popL_spec cmp (a :: rest) (by simp)
      rw [hm] at h
      cases h

theorem popL_length_lt [Inhabited α] (cmp : α → α → Bool) (l : List α) (x : α)
    (m : List α) (h : popL cmp l = (some x, m)) : m.length < l.length := by
  by_cases hne : l = []
  · rw [hne, popL_nil] at h
    cases h
  · obtain ⟨m', hm', hlen, -⟩ := popL_spec cmp l hne
    rw [h] at hm'
    have hmm : m = m' := congrArg Prod.snd hm'
    have hml : m.length = m'.length := by rw [hmm]
    omega

/-- `pop` preserves the heap property. -/
theorem popL_inv [Inhabited α] {cmp : α → α → Bool} (hswo : IsSWO cmp)
    (l : List α) (hInv : HeapInv cmp l) : HeapInv cmp (popL cmp l).2 := by
  match l with
  | [] => exact hInv
  | [a] =>
      rw [popL_one]
      intro i hi hi0
      simp at hi
  | a :: c :: t =>
      rw [popL_cons2]
      have hne2 : (c :: t) ≠ [] := by simp
      refine heapify_down_root hswo _ ?_
      intro j hj hj0 hjpar
      have hlenm : ((c :: t).getLast hne2 :: (c :: t).dropLast).length
          = (c :: t).length := by
        simp
      rw [hlenm] at hj
      have hparle : (j - 1) / 2 ≤ j := by omega
      have hpar0 : 1 ≤ (j - 1) / 2 := by omega
      rw [getE_swapRemove a (c :: t) hne2 j (by omega) hj,
        getE_swapRemove a (c :: t) hne2 ((j - 1) / 2) hpar0 (by omega)]
      exact hInv j (by simp only [List.length_cons] at hj ⊢; omega) (by omega)

theorem parent_idx_some {idx pdx : Nat} (h : parent_idx idx = some pdx) :
    0 < idx ∧ pdx = (idx - 1) / 2 := by
  unfold parent_idx at h
  split at h
  · cases h
    constructor
    · omega
    · rfl
  · cases h

/-- Main correctness of `heapify_up`: if the heap property holds at every
edge except possibly the one from `idx` to its parent, and the
grandparent of `idx` already dominates the children of `idx`, then after
`heapify_up cmp l idx` the heap property holds everywhere. -/
theorem heapify_up_inv [Inhabited α] {cmp : α → α → Bool} (hswo : IsSWO cmp) :
    ∀ (l : List α) (idx : Nat), idx < l.length →
      (∀ j, j < l.length → 0 < j → j ≠ idx →
        cmp (getE l j) (getE l ((j - 1) / 2)) = false) →
      (∀ j, j < l.length → (j - 1) / 2 = idx → 0 < idx →
        cmp (getE l j) (getE l ((idx - 1) / 2)) = false) →
      HeapInv cmp (heapify_up cmp l idx) := by
  intro l idx
  induction l, idx using heapify_up.induct cmp with
  | case1 l idx pdx hp h2 ih =>
      intro hidxlen Hup1 Hup2
      obtain ⟨hidx0, hpdx⟩ := parent_idx_some hp
      have hplt : pdx < idx := by omega
      have hplen : pdx < l.length := by omega
      rw [heapify_up, hp]
      simp only [h2, if_true]
      have easymm := swo_asymm hswo h2
      refine ih ?_ ?_ ?_
      · rw [length_listSwap]; exact hplen
      · -- Hup1 for the swapped list at pdx
        intro j hj hj0 hjne
        rw [length_listSwap] at hj
        by_cases hji : j = idx
        · -- the moved-up element against its new parent
          rw [hji]
          have hjp : (idx - 1) / 2 = pdx := by omega
          rw [hjp]
          rw [getE_listSwap_fst l idx pdx hidxlen hplen,
            getE_listSwap_snd l idx pdx hidxlen hplen]
          exact easymm
        · by_cases hjpi : (j - 1) / 2 = idx
          · -- a child of idx now sees the old parent value
            have hjgt : idx < j := by omega
            rw [hjpi]
            rw [getE_listSwap_other l idx pdx j (by omega) (by omega),
              getE_listSwap_fst l idx pdx hidxlen hplen]
            have := Hup2 j hj hjpi hidx0
            rw [hpdx]
            exact this
          · by_cases hjpp : (j - 1) / 2 = pdx
            · -- a sibling of idx now sees the moved-up value
              rw [hjpp]
              rw [getE_listSwap_other l idx pdx j hji hjne,
                getE_listSwap_snd l idx pdx hidxlen hplen]
              have h1' := Hup1 j hj hj0 hji
              rw [hjpp] at h1'
              exact swo_le_trans hswo easymm h1'
            · rw [getE_listSwap_other l idx pdx j hji hjne,
                getE_listSwap_other l idx pdx _ hjpi hjpp]
              have h1' := Hup1 j hj hj0 hji
              exact h1'
      · -- Hup2 for the swapped list at pdx
        intro j hj hjpar hp0
        rw [length_listSwap] at hj
        have hppne1 : (pdx - 1) / 2 ≠ idx := by omega
        have hppne2 : (pdx - 1) / 2 ≠ pdx := by omega
        rw [getE_listSwap_other l idx pdx _ hppne1 hppne2]
        by_cases hji : j = idx
        · rw [hji, getE_listSwap_fst l idx pdx hidxlen hplen]
          exact Hup1 pdx hplen hp0 (by omega)
        · have hjgt : pdx < j := by omega
          rw [getE_listSwap_other l idx pdx j hji (by omega)]
          have h1' := Hup1 j hj (by omega) hji
          rw [hjpar] at h1'
          have h2' := Hup1 pdx hplen hp0 (by omega)
          exact swo_le_trans hswo h2' h1'
  | case2 l idx pdx hp h2 =>
      intro hidxlen Hup1 _
      obtain ⟨hidx0, hpdx⟩ := parent_idx_some hp
      rw [heapify_up, hp]
      simp only [h2, if_false]
      intro j hj hj0
      by_cases hji : j = idx
      · rw [hji]
        have : cmp (getE l idx) (getE l pdx) = false := by
          simpa using h2
        rw [hpdx] at this
        exact this
      · exact Hup1 j hj hj0 hji
  | case3 l idx hp =>
      intro hidxlen Hup1 _
      have hidx0 : idx = 0 := by
        unfold parent_idx at hp
        split at hp
        · cases hp
        · omega
      rw [heapify_up, hp]
      intro j hj hj0
      exact Hup1 j hj hj0 (by omega)

theorem getE_append_left2 [Inhabited α] (l : List α) (v : α) (j : Nat)
    (h : j < l.length) : getE (l ++ [v]) j = getE l j := by
  rw [getE_eq _ _ (by simp only [List.length_append, List.length_cons]; omega),
    getE_eq _ _ h]
  exact List.getElem_append_left h

/-- `add` preserves the heap property. -/
theorem addL_inv [Inhabited α] {cmp : α → α → Bool} (hswo : IsSWO cmp)
    (l : List α) (v : α) (hInv : HeapInv cmp l) : HeapInv cmp (addL cmp l v) := by
  rw [addL]
  have hlen : (l ++ [v]).length = l.length + 1 := by simp
  have hlast : (l ++ [v]).length - 1 = l.length := by simp
  refine heapify_up_inv hswo (l ++ [v]) ((l ++ [v]).length - 1) (by omega) ?_ ?_
  · intro j hj hj0 hjne
    rw [hlast] at hjne
    rw [hlen] at hj
    have hjlt : j < l.length := by omega
    rw [getE_append_left2 l v j hjlt,
      getE_append_left2 l v ((j - 1) / 2) (by omega)]
    exact hInv j hjlt hj0
  · intro j hj hjpar hp0
    exfalso
    rw [hlast] at hjpar hp0
    rw [hlen] at hj
    omega

/-- Floyd's bottom-up build: after the loop has processed indices
`n, n-1, ..., 0` (in `build_loop cmp (n+1)`), every edge whose parent is
`≥` the next unprocessed index satisfies the heap property. -/
theorem build_loop_inv [Inhabited α] {cmp : α → α → Bool} (hswo : IsSWO cmp) :
    ∀ (n : Nat) (l : List α),
      (∀ j, j < l.length → 0 < j → n ≤ (j - 1) / 2 →
        cmp (getE l j) (getE l ((j - 1) / 2)) = false) →
      HeapInv cmp (build_loop cmp n l) := by
  intro n
  induction n with
  | zero =>
      intro l P
      intro j hj hj0
      exact P j hj hj0 (by omega)
  | succ n ih =>
      intro l P
      rw [build_loop]
      refine ih (heapify_down cmp l n) ?_
      intro j hj hj0 hge
      rw [length_heapify_down] at hj
      by_cases hjsub : inSub n j = true
      · have hjne : j ≠ n := by
          have := inSub_le hjsub
          omega
        refine heapify_down_inv hswo l n ?_ j hj hjsub hjne
        intro j' hj' hsub' hne' hpar'
        obtain ⟨hgt', hparsub'⟩ := inSub_parent hsub' hne'
        have hparge' := inSub_le hparsub'
        exact P j' hj' (by omega) (by omega)
      · have hjsub' : inSub n j = false := by
          cases hs : inSub n j
          · rfl
          · exact absurd hs hjsub
        have hparsub' : inSub n ((j - 1) / 2) = false := by
          cases hs : inSub n ((j - 1) / 2)
          · rfl
          · exact absurd (inSub_of_parent_in hs (by omega)) (by simp [hjsub'])
        have hparne : (j - 1) / 2 ≠ n := by
          intro he
          rw [he, inSub_self] at hparsub'
          cases hparsub'
        rw [getE_heapify_down_outside cmp l n j hjsub',
          getE_heapify_down_outside cmp l n _ hparsub']
        exact P j hj hj0 (by omega)

/-- `build_heap` establishes the heap property on any vector whose length
is a representable `usize` value. -/
theorem build_heap_inv [Inhabited α] {cmp : α → α → Bool} (hswo : IsSWO cmp)
    (l : List α) (hlen : l.length < USIZE) : HeapInv cmp (build_heap cmp l) := by
  rw [build_heap]
  refine build_loop_inv hswo (last_parent_idx l + 1) l ?_
  intro j hj hj0 hge
  exfalso
  have hU : 0 < USIZE := by norm_num [USIZE]
  rw [last_parent_idx] at hge
  by_cases h2 : 2 ≤ l.length
  · have hdiv : 1 ≤ l.length / 2 := by omega
    have hrange : l.length / 2 + (USIZE - 1) < 2 * USIZE := by omega
    have hmod : (l.length / 2 + (USIZE - 1)) % USIZE = l.length / 2 - 1 := by
      have : l.length / 2 + (USIZE - 1) - USIZE = l.length / 2 - 1 := by omega
      rw [Nat.mod_eq_sub_mod (by omega), this, Nat.mod_eq_of_lt (by omega)]
    rw [hmod] at hge
    omega
  · omega

/-- Under the heap property, the comparator never favours any stored
element over the root. -/
theorem heapInv_root_min [Inhabited α] {cmp : α → α → Bool} (hswo : IsSWO cmp)
    (l : List α) (hInv : HeapInv cmp l) :
    ∀ j, j < l.length → cmp (getE l j) (getE l 0) = false := by
  intro j hj
  have h0 : 0 < l.length := by omega
  exact subtree_root_min hswo l 0 h0
    (fun j' hj' _ hne' => hInv j' hj' (by omega)) j hj (inSub_zero j)

theorem heapInv_root_min_mem [Inhabited α] {cmp : α → α → Bool} (hswo : IsSWO cmp)
    (l : List α) (hInv : HeapInv cmp l) :
    ∀ y ∈ l, cmp y (getE l 0) = false := by
  intro y hy
  obtain ⟨i, hi, hiv⟩ := List.getElem_of_mem hy
  have : getE l i = y := by rw [getE_eq _ _ hi, hiv]
  rw [← this]
  exact heapInv_root_min hswo l hInv i hi

/-- Drain the heap: repeatedly `pop` until the absent value is returned,
collecting the returned roots in order. -/
def popAll [Inhabited α] (cmp : α → α → Bool) (l : List α) : List α :=
  match h : popL cmp l with
  | (some x, m) => x :: popAll cmp m
  | (none, _) => []
termination_by l.length
decreasing_by exact popL_length_lt cmp l x m h

theorem popAll_perm [Inhabited α] (cmp : α → α → Bool) (l : List α) :
    (popAll cmp l).Perm l := by
  induction l using popAll.induct cmp with
  | case1 l x m h ih =>
      rw [popAll, h]
      have hne : l ≠ [] := by
        intro he
        rw [he, popL_nil] at h
        cases h
      obtain ⟨m', hm', hlen, hperm⟩ := popL_spec cmp l hne
      rw [h] at hm'
      have hx : x = getE l 0 := by
        have := congrArg Prod.fst hm'
        simpa using this
      have hmm : m = m' := congrArg Prod.snd hm'
      rw [hx, hmm]
      exact (List.Perm.cons _ (hmm ▸ ih)).trans hperm
  | case2 l w h =>
      rw [popAll, h]
      have := popL_fst_none cmp l (by rw [h])
      rw [this]

/-- Draining a heap that satisfies the heap property yields a sequence in
which no element is favoured over an earlier one. -/
theorem popAll_sorted [Inhabited α] {cmp : α → α → Bool} (hswo : IsSWO cmp) :
    ∀ l : List α, HeapInv cmp l →
      (popAll cmp l).Pairwise (fun a b => cmp b a = false) := by
  intro l
  induction l using popAll.induct cmp with
  | case1 l x m h ih =>
      intro hInv
      rw [popAll, h]
      have hne : l ≠ [] := by
        intro he
        rw [he, popL_nil] at h
        cases h
      obtain ⟨m', hm', hlen, hperm⟩ := popL_spec cmp l hne
      rw [h] at hm'
      have hx : x = getE l 0 := by
        have := congrArg Prod.fst hm'
        simpa using this
      have hmm : m = m' := congrArg Prod.snd hm'
      have hInvm : HeapInv cmp m := by
        have := popL_inv hswo l hInv
        rw [h] at this
        exact this
      rw [List.pairwise_cons]
      constructor
      · intro y hy
        have hym : y ∈ m := (popAll_perm cmp m).mem_iff.mp hy
        have hyl : y ∈ l := by
          refine hperm.mem_iff.mp ?_
          rw [← hmm]
          exact List.mem_cons_of_mem _ hym
        rw [hx]
        exact heapInv_root_min_mem hswo l hInv y hyl
      · exact ih hInvm
  | case2 l w h =>
      intro _
      rw [popAll, h]
      exact List.Pairwise.nil

/-! ### The `Heap<T>` struct and its public operations -/

/-- The Rust struct `Heap<T> { items: Vec<T>, comparator: fn(&T,&T)->bool }`. -/
structure Heap (α : Type _) where
  items : List α
  comparator : α → α → Bool

/-- `Heap::new`: empty items, the given comparator. -/
def Heap.new (cmp : α → α → Bool) : Heap α := ⟨[], cmp⟩

/-- `Heap::from_vec`: store the items and the comparator, then `build_heap`. -/
def Heap.from_vec [Inhabited α] (items : List α) (cmp : α → α → Bool) : Heap α :=
  ⟨build_heap cmp items, cmp⟩

/-- `Heap::len`. -/
def Heap.len (h : Heap α) : Nat := h.items.length

/-- `Heap::is_empty`: `len == 0`. -/
def Heap.is_empty (h : Heap α) : Bool := h.len == 0

/-- `Heap::iter`: the backing array in its raw internal order. -/
def Heap.iter (h : Heap α) : List α := h.items

/-- `Heap::add`. -/
def Heap.add [Inhabited α] (h : Heap α) (v : α) : Heap α :=
  ⟨addL h.comparator h.items v, h.comparator⟩

/-- `Heap::pop`: the returned value together with the mutated heap. -/
def Heap.pop [Inhabited α] (h : Heap α) : Option α × Heap α :=
  ((popL h.comparator h.items).1, ⟨(popL h.comparator h.items).2, h.comparator⟩)

/-- The comparator `|a, b| a < b` of `new_min` / `from_vec_min`. -/
def cmpMin [LinearOrder α] : α → α → Bool := fun a b => decide (a < b)

/-- The comparator `|a, b| a > b` of `new_max` / `from_vec_max`. -/
def cmpMax [LinearOrder α] : α → α → Bool := fun a b => decide (a > b)

/-- `Heap::new_min`. -/
def Heap.new_min (α : Type _) [LinearOrder α] : Heap α := Heap.new cmpMin

/-- `Heap::new_max`. -/
def Heap.new_max (α : Type _) [LinearOrder α] : Heap α := Heap.new cmpMax

/-- `Heap::from_vec_min`. -/
def Heap.from_vec_min [Inhabited α] [LinearOrder α] (items : List α) : Heap α :=
  Heap.from_vec items cmpMin

/-- `Heap::from_vec_max`. -/
def Heap.from_vec_max [Inhabited α] [LinearOrder α] (items : List α) : Heap α :=
  Heap.from_vec items cmpMax

/-- Drain a heap by repeated `pop` until the absent value appears. -/
def Heap.popAllH [Inhabited α] (h : Heap α) : List α :=
  popAll h.comparator h.items

theorem isSWO_cmpMin [LinearOrder α] : IsSWO (cmpMin : α → α → Bool) := by
  refine ⟨fun a => by simp [cmpMin], fun a b c hab hbc => ?_, fun a b c h1 h2 => ?_⟩
  · simp only [cmpMin, decide_eq_true_eq] at *
    exact lt_trans hab hbc
  · simp only [cmpMin, decide_eq_false_iff_not] at *
    have hab : a = b := le_antisymm (not_lt.mp h1.2) (not_lt.mp h1.1)
    have hbc : b = c := le_antisymm (not_lt.mp h2.2) (not_lt.mp h2.1)
    subst hab; subst hbc
    exact ⟨lt_irrefl a, lt_irrefl a⟩

theorem isSWO_cmpMax [LinearOrder α] : IsSWO (cmpMax : α → α → Bool) := by
  refine ⟨fun a => by simp [cmpMax], fun a b c hab hbc => ?_, fun a b c h1 h2 => ?_⟩
  · simp only [cmpMax, gt_iff_lt, decide_eq_true_eq] at *
    exact lt_trans hbc hab
  · simp only [cmpMax, gt_iff_lt, decide_eq_false_iff_not] at *
    have hab : a = b := le_antisymm (not_lt.mp h1.1) (not_lt.mp h1.2)
    have hbc : b = c := le_antisymm (not_lt.mp h2.1) (not_lt.mp h2.2)
    subst hab; subst hbc
    exact ⟨lt_irrefl a, lt_irrefl a⟩

theorem pairwise_cmpMin_iff [LinearOrder α] (l : List α) :
    l.Pairwise (fun a b => cmpMin b a = false) ↔ l.Sorted (· ≤ ·) := by
  unfold List.Sorted
  refine List.Pairwise.iff (fun a b => ?_)
  simp [cmpMin]

theorem pairwise_cmpMax_iff [LinearOrder α] (l : List α) :
    l.Pairwise (fun a b => cmpMax b a = false) ↔ l.Sorted (· ≥ ·) := by
  unfold List.Sorted
  refine List.Pairwise.iff (fun a b => ?_)
  simp [cmpMax]

/-! ### Sequences of mutating operations -/

/-- A mutating call on an existing heap: `add(v)` or `pop()`. -/
inductive HOp (α : Type _) where
  | add (v : α)
  | pop

def runOp [Inhabited α] (h : Heap α) : HOp α → Heap α
  | .add v => h.add v
  | .pop => h.pop.2

def runOps [Inhabited α] (h : Heap α) (ops : List (HOp α)) : Heap α :=
  ops.foldl runOp h

theorem runOp_comparator [Inhabited α] (h : Heap α) (op : HOp α) :
    (runOp h op).comparator = h.comparator := by
  cases op <;> rfl

theorem runOps_comparator [Inhabited α] (h : Heap α) (ops : List (HOp α)) :
    (runOps h ops).comparator = h.comparator := by
  induction ops generalizing h with
  | nil => rfl
  | cons op ops ih =>
      rw [runOps, List.foldl_cons]
      rw [show List.foldl runOp (runOp h op) ops = runOps (runOp h op) ops from rfl]
      rw [ih, runOp_comparator]

theorem runOp_inv [Inhabited α] {h : Heap α} (hswo : IsSWO h.comparator)
    (hInv : HeapInv h.comparator h.items) (op : HOp α) :
    HeapInv (runOp h op).comparator (runOp h op).items := by
  cases op with
  | add v =>
      rw [runOp_comparator]
      exact addL_inv hswo h.items v hInv
  | pop =>
      rw [runOp_comparator]
      exact popL_inv hswo h.items hInv

theorem runOps_inv [Inhabited α] {h : Heap α} (hswo : IsSWO h.comparator)
    (hInv : HeapInv h.comparator h.items) (ops : List (HOp α)) :
    HeapInv (runOps h ops).comparator (runOps h ops).items := by
  induction ops generalizing h with
  | nil => exact hInv
  | cons op ops ih =>
      rw [runOps, List.foldl_cons]
      rw [show List.foldl runOp (runOp h op) ops = runOps (runOp h op) ops from rfl]
      refine ih ?_ ?_
      · rw [runOp_comparator]; exact hswo
      · exact runOp_inv hswo hInv op

/-! ### The B-tree construction stub (`b_tree.rs`)

The `usize` arithmetic of the constructors is modelled with
overflow/underflow checks (`none` = failed construction, the
`debug_assertions` panic semantics): the subtraction `degree - 1`
panics on underflow and the multiplication `2 * branch_factor` panics
on overflow.  The failing cases abort release builds as well: a wrapped
subtraction makes `Vec::with_capacity(0usize.wrapping_sub(1))` abort
with a capacity overflow for any non-zero-sized element type, and at
`branch_factor = 2^63` the wrapped degree `0` reaches that same
aborting path.  In no build does a failing case return a tree. -/

/-- Checked `usize` subtraction: `none` on underflow. -/
def usizeSub (a b : Nat) : Option Nat :=
  if b ≤ a then some (a - b) else none

/-- Checked `usize` multiplication: `none` on overflow. -/
def usizeMul (a b : Nat) : Option Nat :=
  if a * b < USIZE then some (a * b) else none

/-- Checked `usize` addition: `none` on overflow. -/
def usizeAdd (a b : Nat) : Option Nat :=
  if a + b < USIZE then some (a + b) else none

/-- `struct Node<T> { keys: Vec<T>, children: Vec<Node<T>> }`. -/
structure BNode (α : Type _) where
  keys : List α
  children : List (BNode α)

/-- `Node::new(degree, keys, children)`: the `None` arm for `keys`
allocates `Vec::with_capacity(degree - 1)` — the subtraction is the
failure point when `degree = 0`.  A `with_capacity` vector is empty. -/
def BNode.new (degree : Nat) (keys : Option (List α))
    (children : Option (List (BNode α))) : Option (BNode α) :=
  (match keys with
   | some ks => some ks
   | none => (usizeSub degree 1).map (fun _ => ([] : List α))).bind
    fun ks =>
      (match children with
       | some cs => some cs
       | none => some ([] : List (BNode α))).bind
        fun cs => some ⟨ks, cs⟩

/-- `Node::is_leaf`: no children. -/
def BNode.is_leaf (n : BNode α) : Bool := n.children.isEmpty

/-- `struct BTreeProps { degree, max_keys, mid_key_index }`. -/
structure BTreeProps where
  degree : Nat
  max_keys : Nat
  mid_key_index : Nat

/-- `BTreeProps::new(degree)`: `max_keys = degree - 1`,
`mid_key_index = (degree - 1) / 2`; the subtraction underflows when
`degree = 0`. -/
def BTreeProps.new (degree : Nat) : Option BTreeProps :=
  (usizeSub degree 1).map (fun mk => ⟨degree, mk, mk / 2⟩)

/-- `struct BTree<T> { root: Node<T>, props: BTreeProps }`. -/
structure BTreeS (α : Type _) where
  root : BNode α
  props : BTreeProps

/-- `BTree::new(branch_factor)`: `let degree = 2 * branch_factor;` (a
`usize` multiplication, checked), then a fresh leaf root and the derived
properties. -/
def BTreeS.new (α : Type _) (branch_factor : Nat) : Option (BTreeS α) :=
  (usizeMul 2 branch_factor).bind fun degree =>
    (BNode.new degree none none).bind fun root =>
      (BTreeProps.new degree).bind fun props =>
        some ⟨root, props⟩

/-! ### Bounds-checked execution model

The `...C` functions repeat the heap operations with every element access
replaced by `l[i]?`; an out-of-bounds access yields `none` (a Rust index
panic).  The `fuel` argument of the sift loops only bounds the number of
swap iterations; `heapifyDownC_spec` / `heapifyUpC_spec` prove it is
never exhausted at the fuel values used by the operations, so `none`
results can only come from an out-of-bounds access. -/

def getC (l : List α) (i : Nat) : Option α := l[i]?

def listSwapC (l : List α) (i j : Nat) : Option (List α) :=
  match l[i]?, l[j]? with
  | some a, some b => some ((l.set i b).set j a)
  | _, _ => none

def chooseChildC (cmp : α → α → Bool) (l : List α) (idx : Nat) : Option Nat :=
  if l.length ≤ right_child_idx idx then some (left_child_idx idx)
  else
    (getC l (left_child_idx idx)).bind fun lv =>
      (getC l (right_child_idx idx)).bind fun rv =>
        some (if cmp lv rv then left_child_idx idx else right_child_idx idx)

def heapifyDownC (cmp : α → α → Bool) : Nat → List α → Nat → Option (List α)
  | fuel, l, idx =>
    if children_present l idx then
      (chooseChildC cmp l idx).bind fun cdx =>
        (getC l cdx).bind fun cv =>
          (getC l idx).bind fun iv =>
            if cmp cv iv then
              (listSwapC l idx cdx).bind fun l2 =>
                match fuel with
                | 0 => none
                | fuel + 1 => heapifyDownC cmp fuel l2 cdx
            else some l
    else some l

def heapifyUpC (cmp : α → α → Bool) : Nat → List α → Nat → Option (List α)
  | fuel, l, idx =>
    match parent_idx idx with
    | some pdx =>
        (getC l idx).bind fun iv =>
          (getC l pdx).bind fun pv =>
            if cmp iv pv then
              (listSwapC l idx pdx).bind fun l2 =>
                match fuel with
                | 0 => none
                | fuel + 1 => heapifyUpC cmp fuel l2 pdx
            else some l
    | none => some l

def addLC (cmp : α → α → Bool) (l : List α) (v : α) : Option (List α) :=
  (usizeSub (l ++ [v]).length 1).bind fun idx =>
    heapifyUpC cmp (l ++ [v]).length (l ++ [v]) idx

def popLC (cmp : α → α → Bool) (l : List α) : Option (Option α × List α) :=
  if l.length = 0 then some (none, l)
  else
    match swapRemoveFront l with
    | none => some (none, l)
    | some (x, m) =>
        if m.length = 0 then some (some x, m)
        else (heapifyDownC cmp m.length m 0).map fun m2 => (some x, m2)

def build_loopC (cmp : α → α → Bool) : Nat → List α → Option (List α)
  | 0, l => some l
  | n + 1, l => (heapifyDownC cmp l.length l n).bind (build_loopC cmp n)

def build_heapC (cmp : α → α → Bool) (l : List α) : Option (List α) :=
  build_loopC cmp (last_parent_idx l + 1) l

def runOpC (h : Heap α) : HOp α → Option (Heap α)
  | .add v => (addLC h.comparator h.items v).map fun l => ⟨l, h.comparator⟩
  | .pop => (popLC h.comparator h.items).map fun p => ⟨p.2, h.comparator⟩

def runOpsC (h : Heap α) : List (HOp α) → Option (Heap α)
  | [] => some h
  | op :: ops => (runOpC h op).bind fun h2 => runOpsC h2 ops

theorem getC_eq [Inhabited α] (l : List α) (i : Nat) (h : i < l.length) :
    getC l i = some (getE l i) := by
  rw [getC, List.getElem?_eq_getElem h, getE_eq _ _ h]

theorem listSwapC_eq (l : List α) (i j : Nat) (hi : i < l.length) (hj : j < l.length) :
    listSwapC l i j = some (listSwap l i j) := by
  rw [listSwapC, listSwap]
  rw [List.getElem?_eq_getElem hi, List.getElem?_eq_getElem hj]

theorem chooseChildC_spec [Inhabited α] (cmp : α → α → Bool) (l : List α) (idx : Nat)
    (h : children_present l idx = true) :
    chooseChildC cmp l idx = some (chooseChild cmp l idx) := by
  simp only [children_present, decide_eq_true_eq] at h
  rw [chooseChildC, chooseChild]
  by_cases hr : l.length ≤ right_child_idx idx
  · rw [if_pos hr, if_pos hr]
  · have hrlt : right_child_idx idx < l.length := by omega
    have hllt : left_child_idx idx < l.length := by
      simp only [right_child_idx] at hrlt
      omega
    rw [if_neg hr, if_neg hr]
    rw [getC_eq l _ hllt, getC_eq l _ hrlt]
    simp only [Option.bind_eq_bind, Option.some_bind]

theorem heapifyDownC_spec [Inhabited α] (cmp : α → α → Bool) :
    ∀ (fuel : Nat) (l : List α) (idx : Nat), l.length ≤ fuel + idx + 1 →
      heapifyDownC cmp fuel l idx = some (heapify_down cmp l idx) := by
  intro fuel
  induction fuel with
  | zero =>
      intro l idx hfuel
      have hcp : children_present l idx = false := by
        simp only [children_present, left_child_idx, decide_eq_false_iff_not]
        omega
      rw [heapifyDownC, heapify_down]
      rw [hcp]
      simp
  | succ f ih =>
      intro l idx hfuel
      rw [heapifyDownC, heapify_down]
      by_cases hcp : children_present l idx = true
      · have hclt := chooseChild_lt cmp l idx hcp
        have hcgt := chooseChild_gt cmp l idx
        have hidxlt : idx < l.length := by omega
        rw [hcp]
        simp only [if_true, dite_true]
        rw [chooseChildC_spec cmp l idx hcp]
        simp only [Option.some_bind]
        rw [getC_eq l _ hclt, getC_eq l _ hidxlt]
        simp only [Option.some_bind]
        by_cases hc : cmp (getE l (chooseChild cmp l idx)) (getE l idx) = true
        · rw [hc]
          simp only [if_true]
          rw [listSwapC_eq l idx _ hidxlt hclt]
          simp only [Option.some_bind]
          exact ih _ _ (by rw [length_listSwap]; omega)
        · have hc' : cmp (getE l (chooseChild cmp l idx)) (getE l idx) = false := by
            cases hcc : cmp (getE l (chooseChild cmp l idx)) (getE l idx)
            · rfl
            · exact absurd hcc hc
          rw [hc']
          simp
      · have hcp' : children_present l idx = false := by
          cases hcc : children_present l idx
          · rfl
          · exact absurd hcc hcp
        rw [hcp']
        simp

theorem heapifyUpC_spec [Inhabited α] (cmp : α → α → Bool) :
    ∀ (fuel : Nat) (l : List α) (idx : Nat), idx ≤ fuel → idx < l.length →
      heapifyUpC cmp fuel l idx = some (heapify_up cmp l idx) := by
  intro fuel
  induction fuel with
  | zero =>
      intro l idx hf hlen
      have hidx : idx = 0 := by omega
      subst hidx
      have hp : parent_idx 0 = none := rfl
      rw [heapifyUpC, heapify_up, hp]
  | succ f ih =>
      intro l idx hf hlen
      cases hp : parent_idx idx with
      | none => rw [heapifyUpC, heapify_up, hp]
      | some pdx =>
          obtain ⟨hidx0, hpdx⟩ := parent_idx_some hp
          have hplt : pdx < idx := by omega
          have hplen : pdx < l.length := by omega
          rw [heapifyUpC, heapify_up, hp]
          simp only []
          rw [getC_eq l _ hlen, getC_eq l _ hplen]
          simp only [Option.some_bind]
          by_cases hc : cmp (getE l idx) (getE l pdx) = true
          · rw [hc]
            simp only [if_true]
            rw [listSwapC_eq l idx pdx hlen hplen]
            simp only [Option.some_bind]
            exact ih _ _ (by omega) (by rw [length_listSwap]; exact hplen)
          · have hc' : cmp (getE l idx) (getE l pdx) = false := by
              cases hcc : cmp (getE l idx) (getE l pdx)
              · rfl
              · exact absurd hcc hc
            rw [hc']
            simp

theorem addLC_spec [Inhabited α] (cmp : α → α → Bool) (l : List α) (v : α) :
    addLC cmp l v = some (addL cmp l v) := by
  rw [addLC, addL]
  have hlen : (l ++ [v]).length = l.length + 1 := by simp
  have hsub : usizeSub (l ++ [v]).length 1 = some ((l ++ [v]).length - 1) := by
    rw [usizeSub, if_pos (by omega)]
  rw [hsub]
  simp only [Option.some_bind]
  exact heapifyUpC_spec cmp _ _ _ (by omega) (by omega)

theorem popLC_spec [Inhabited α] (cmp : α → α → Bool) (l : List α) :
    popLC cmp l = some (popL cmp l) := by
  rw [popLC, popL]
  by_cases h0 : l.length = 0
  · rw [if_pos h0, if_pos h0]
  · rw [if_neg h0, if_neg h0]
    cases hsw : swapRemoveFront l with
    | none => rfl
    | some p =>
        obtain ⟨x, m⟩ := p
        simp only []
        by_cases hm : m.length = 0
        · rw [if_pos hm, if_pos hm]
        · rw [if_neg hm, if_neg hm]
          rw [heapifyDownC_spec cmp m.length m 0 (by omega)]
          rfl

theorem build_loopC_spec [Inhabited α] (cmp : α → α → Bool) :
    ∀ (n : Nat) (l : List α), build_loopC cmp n l = some (build_loop cmp n l) := by
  intro n
  induction n with
  | zero => intro l; rfl
  | succ n ih =>
      intro l
      rw [build_loopC, build_loop]
      rw [heapifyDownC_spec cmp l.length l n (by omega)]
      simp only [Option.some_bind]
      exact ih _

theorem build_heapC_spec [Inhabited α] (cmp : α → α → Bool) (l : List α) :
    build_heapC cmp l = some (build_heap cmp l) :=
  build_loopC_spec cmp _ l

theorem runOpC_spec [Inhabited α] (h : Heap α) (op : HOp α) :
    runOpC h op = some (runOp h op) := by
  cases op with
  | add v =>
      rw [runOpC, runOp, addLC_spec]
      rfl
  | pop =>
      rw [runOpC, runOp, popLC_spec]
      rfl

theorem runOpsC_spec [Inhabited α] (h : Heap α) (ops : List (HOp α)) :
    runOpsC h ops = some (runOps h ops) := by
  induction ops generalizing h with
  | nil => rfl
  | cons op ops ih =>
      rw [runOpsC, runOpC_spec]
      simp only [Option.some_bind]
      rw [ih]
      rfl

/-! ### Overflow-checked (`debug_assertions`) arithmetic model

In a Rust debug build, plain `usize` arithmetic panics on overflow.  The
`...Dbg` functions repeat the heap routines with the child-index
arithmetic of `left_child_idx` / `right_child_idx` checked; `none` is an
arithmetic-overflow panic.  (`wrapping_sub` in `build_heap` never panics
— it wraps by definition — so `last_parent_idx` is unchanged.) -/

/-- `left_child_idx` under checked arithmetic: `idx * 2 + 1`. -/
def left_child_idxDbg (idx : Nat) : Option Nat :=
  (usizeMul idx 2).bind fun x => usizeAdd x 1

/-- `children_present` under checked arithmetic. -/
def children_presentDbg (l : List α) (idx : Nat) : Option Bool :=
  (left_child_idxDbg idx).map fun ldx => decide (ldx < l.length)

def chooseChildDbg (cmp : α → α → Bool) (l : List α) (idx : Nat) : Option Nat :=
  (left_child_idxDbg idx).bind fun ldx =>
    (usizeAdd ldx 1).bind fun rdx =>
      if l.length ≤ rdx then some ldx
      else
        (getC l ldx).bind fun lv =>
          (getC l rdx).bind fun rv =>
            some (if cmp lv rv then ldx else rdx)

def heapify_downDbg (cmp : α → α → Bool) : Nat → List α → Nat → Option (List α)
  | fuel, l, idx =>
    (children_presentDbg l idx).bind fun cp =>
      if cp then
        (chooseChildDbg cmp l idx).bind fun cdx =>
          (getC l cdx).bind fun cv =>
            (getC l idx).bind fun iv =>
              if cmp cv iv then
                (listSwapC l idx cdx).bind fun l2 =>
                  match fuel with
                  | 0 => none
                  | fuel + 1 => heapify_downDbg cmp fuel l2 cdx
              else some l
      else some l

def build_loopDbg (cmp : α → α → Bool) : Nat → List α → Option (List α)
  | 0, l => some l
  | n + 1, l => (heapify_downDbg cmp l.length l n).bind (build_loopDbg cmp n)

/-- `build_heap` in a debug build. -/
def build_heapDbg (cmp : α → α → Bool) (l : List α) : Option (List α) :=
  build_loopDbg cmp (last_parent_idx l + 1) l

/-- `from_vec` in a debug build. -/
def from_vecDbg (cmp : α → α → Bool) (l : List α) : Option (List α) :=
  build_heapDbg cmp l

theorem last_parent_idx_nil : last_parent_idx ([] : List Nat) = USIZE - 1 := by
  rw [last_parent_idx]
  simp only [List.length_nil]
  rw [Nat.mod_eq_of_lt (by norm_num [USIZE])]
  norm_num

theorem left_child_idxDbg_overflow : left_child_idxDbg (USIZE - 1) = none := by
  rw [left_child_idxDbg, usizeMul]
  rw [if_neg (by norm_num [USIZE])]
  rfl

/-! ### Building a heap by repeated insertion, and reachable states -/

/-- Insert every element of `S`, one at a time, by `Heap::add`. -/
def Heap.add_all [Inhabited α] (h : Heap α) (S : List α) : Heap α :=
  S.foldl Heap.add h

theorem add_all_items [Inhabited α] (h : Heap α) (S : List α) :
    (h.add_all S).items = S.foldl (addL h.comparator) h.items ∧
      (h.add_all S).comparator = h.comparator := by
  induction S generalizing h with
  | nil => exact ⟨rfl, rfl⟩
  | cons a S ih =>
      rw [Heap.add_all, List.foldl_cons, List.foldl_cons]
      exact ih (h.add a)

theorem foldl_addL_perm [Inhabited α] (cmp : α → α → Bool) :
    ∀ (S : List α) (l : List α), (S.foldl (addL cmp) l).Perm (S ++ l) := by
  intro S
  induction S with
  | nil => intro l; simp
  | cons a S ih =>
      intro l
      rw [List.foldl_cons]
      refine (ih (addL cmp l a)).trans ?_
      refine (List.Perm.append_left S (perm_addL cmp l a)).trans ?_
      exact @List.perm_middle _ a S l

theorem foldl_addL_inv [Inhabited α] {cmp : α → α → Bool} (hswo : IsSWO cmp) :
    ∀ (S : List α) (l : List α), HeapInv cmp l → HeapInv cmp (S.foldl (addL cmp) l) := by
  intro S
  induction S with
  | nil => intro l hInv; exact hInv
  | cons a S ih =>
      intro l hInv
      rw [List.foldl_cons]
      exact ih _ (addL_inv hswo l a hInv)

theorem heapInv_nil [Inhabited α] (cmp : α → α → Bool) : HeapInv cmp ([] : List α) := by
  intro i hi hi0
  simp at hi

/-- Any heap reachable from `new` or `from_vec` through `add`/`pop` calls
satisfies the heap property (for a strict-weak-ordering comparator). -/
theorem reachable_inv [Inhabited α] (cmp : α → α → Bool) (hswo : IsSWO cmp)
    (h0 : Heap α)
    (hstart : h0 = Heap.new cmp ∨ ∃ S, S.length < USIZE ∧ h0 = Heap.from_vec S cmp)
    (ops : List (HOp α)) :
    HeapInv (runOps h0 ops).comparator (runOps h0 ops).items := by
  have hcmp : h0.comparator = cmp := by
    rcases hstart with h | ⟨S, -, h⟩ <;> rw [h] <;> rfl
  have hswo0 : IsSWO h0.comparator := by rw [hcmp]; exact hswo
  refine runOps_inv hswo0 ?_ ops
  rcases hstart with h | ⟨S, hS, h⟩
  · rw [h]
    exact heapInv_nil cmp
  · rw [h]
    simp only [Heap.from_vec]
    exact build_heap_inv hswo S hS

theorem head?_eq_getE [Inhabited α] (l : List α) (hne : l ≠ []) :
    l.head? = some (getE l 0) := by
  cases l with
  | nil => exact absurd rfl hne
  | cons a t => rfl

theorem add_all_new [Inhabited α] (cmp : α → α → Bool) (S : List α) :
    Heap.add_all (Heap.new cmp) S = ⟨S.foldl (addL cmp) [], cmp⟩ := by
  obtain ⟨h1, h2⟩ := add_all_items (Heap.new cmp) S
  have he : Heap.add_all (Heap.new cmp) S
      = ⟨(Heap.add_all (Heap.new cmp) S).items,
         (Heap.add_all (Heap.new cmp) S).comparator⟩ := rfl
  rw [he, h1, h2]
  rfl

theorem popAllH_mk [Inhabited α] (cmp : α → α → Bool) (l : List α) :
    Heap.popAllH ⟨l, cmp⟩ = popAll cmp l := rfl

theorem from_vec_min_eq [Inhabited α] [LinearOrder α] (S : List α) :
    Heap.from_vec_min S = (⟨build_heap cmpMin S, cmpMin⟩ : Heap α) := rfl

theorem from_vec_max_eq [Inhabited α] [LinearOrder α] (S : List α) :
    Heap.from_vec_max S = (⟨build_heap cmpMax S, cmpMax⟩ : Heap α) := rfl

/-! ### The claims -/

/-- C1: for every finite multiset of values of a totally ordered type,
building a min-heap (via `new_min`/`add` or `from_vec_min`) and popping
until absent yields the values in non-decreasing order; dually a max-heap
(`new_max`/`from_vec_max`) yields them in non-increasing order.  (The
length bound is the representability of the vector length in `usize`.) -/
theorem c1_extraction_order [Inhabited α] [LinearOrder α] (S : List α)
    (hlen : S.length < USIZE) :
    (((Heap.new_min α).add_all S).popAllH.Sorted (· ≤ ·) ∧
      ((Heap.new_min α).add_all S).popAllH.Perm S) ∧
    ((Heap.from_vec_min S).popAllH.Sorted (· ≤ ·) ∧
      (Heap.from_vec_min S).popAllH.Perm S) ∧
    (((Heap.new_max α).add_all S).popAllH.Sorted (· ≥ ·) ∧
      ((Heap.new_max α).add_all S).popAllH.Perm S) ∧
    ((Heap.from_vec_max S).popAllH.Sorted (· ≥ ·) ∧
      (Heap.from_vec_max S).popAllH.Perm S) := by
  have hmin := isSWO_cmpMin (α := α)
  have hmax := isSWO_cmpMax (α := α)
  refine ⟨⟨?_, ?_⟩, ⟨?_, ?_⟩, ⟨?_, ?_⟩, ⟨?_, ?_⟩⟩
  · rw [show Heap.new_min α = Heap.new cmpMin from rfl, add_all_new, popAllH_mk,
      ← pairwise_cmpMin_iff]
    exact popAll_sorted hmin _ (foldl_addL_inv hmin S [] (heapInv_nil cmpMin))
  · rw [show Heap.new_min α = Heap.new cmpMin from rfl, add_all_new, popAllH_mk]
    refine (popAll_perm cmpMin _).trans ?_
    refine (foldl_addL_perm cmpMin S []).trans ?_
    simp
  · rw [from_vec_min_eq, popAllH_mk, ← pairwise_cmpMin_iff]
    exact popAll_sorted hmin _ (build_heap_inv hmin S hlen)
  · rw [from_vec_min_eq, popAllH_mk]
    exact (popAll_perm cmpMin _).trans (perm_build_heap cmpMin S)
  · rw [show Heap.new_max α = Heap.new cmpMax from rfl, add_all_new, popAllH_mk,
      ← pairwise_cmpMax_iff]
    exact popAll_sorted hmax _ (foldl_addL_inv hmax S [] (heapInv_nil cmpMax))
  · rw [show Heap.new_max α = Heap.new cmpMax from rfl, add_all_new, popAllH_mk]
    refine (popAll_perm cmpMax _).trans ?_
    refine (foldl_addL_perm cmpMax S []).trans ?_
    simp
  · rw [from_vec_max_eq, popAllH_mk, ← pairwise_cmpMax_iff]
    exact popAll_sorted hmax _ (build_heap_inv hmax S hlen)
  · rw [from_vec_max_eq, popAllH_mk]
    exact (popAll_perm cmpMax _).trans (perm_build_heap cmpMax S)

theorem c1_extraction_order_witness :
    ([3, 1, 2] : List Nat).length < USIZE ∧
      ((Heap.from_vec_min [3, 1, 2]).popAllH.Sorted (· ≤ ·) ∧
        (Heap.from_vec_min [3, 1, 2]).popAllH.Perm [3, 1, 2]) := by
  have hl : ([3, 1, 2] : List Nat).length < USIZE := by norm_num [USIZE]
  exact ⟨hl, (c1_extraction_order [3, 1, 2] hl).2.1⟩

/-- C2: for every heap with a strict-weak-ordering comparator, after any
sequence of `add`/`pop` calls starting from `new` or `from_vec`, the heap
property holds: for every non-root index `i` with parent `p = (i-1)/2`,
`comparator(items[i], items[p])` is false. -/
theorem c2_heap_property [Inhabited α] (cmp : α → α → Bool) (hswo : IsSWO cmp)
    (h0 : Heap α)
    (hstart : h0 = Heap.new cmp ∨ ∃ S, S.length < USIZE ∧ h0 = Heap.from_vec S cmp)
    (ops : List (HOp α)) :
    HeapInv (runOps h0 ops).comparator (runOps h0 ops).items :=
  reachable_inv cmp hswo h0 hstart ops

theorem c2_heap_property_witness :
    HeapInv (runOps (Heap.new (cmpMin : Nat → Nat → Bool))
        [HOp.add 4, HOp.add 2, HOp.add 9, HOp.pop]).comparator
      (runOps (Heap.new (cmpMin : Nat → Nat → Bool))
        [HOp.add 4, HOp.add 2, HOp.add 9, HOp.pop]).items :=
  c2_heap_property cmpMin isSWO_cmpMin _ (Or.inl rfl) _

/-- C4: for every input sequence of a totally ordered type, popping all
elements from `from_vec_min(S)` yields exactly the same sequence as
popping all elements from a heap built by `add`-ing each element of `S`
to an empty `new_min` heap. -/
theorem c4_bulk_build_equivalence [Inhabited α] [LinearOrder α] (S : List α)
    (hlen : S.length < USIZE) :
    (Heap.from_vec_min S).popAllH = ((Heap.new_min α).add_all S).popAllH := by
  have hmin := isSWO_cmpMin (α := α)
  have s1 : (Heap.from_vec_min S).popAllH.Sorted (· ≤ ·) := by
    rw [from_vec_min_eq, popAllH_mk, ← pairwise_cmpMin_iff]
    exact popAll_sorted hmin _ (build_heap_inv hmin S hlen)
  have s2 : ((Heap.new_min α).add_all S).popAllH.Sorted (· ≤ ·) := by
    rw [show Heap.new_min α = Heap.new cmpMin from rfl, add_all_new, popAllH_mk,
      ← pairwise_cmpMin_iff]
    exact popAll_sorted hmin _ (foldl_addL_inv hmin S [] (heapInv_nil cmpMin))
  have p1 : (Heap.from_vec_min S).popAllH.Perm S := by
    rw [from_vec_min_eq, popAllH_mk]
    exact (popAll_perm cmpMin _).trans (perm_build_heap cmpMin S)
  have p2 : ((Heap.new_min α).add_all S).popAllH.Perm S := by
    rw [show Heap.new_min α = Heap.new cmpMin from rfl, add_all_new, popAllH_mk]
    refine (popAll_perm cmpMin _).trans ?_
    refine (foldl_addL_perm cmpMin S []).trans ?_
    simp
  exact List.eq_of_perm_of_sorted (p1.trans p2.symm) s1 s2

theorem c4_bulk_build_equivalence_witness :
    (Heap.from_vec_min ([5, 4, 6] : List Nat)).popAllH
      = ((Heap.new_min Nat).add_all [5, 4, 6]).popAllH :=
  c4_bulk_build_equivalence [5, 4, 6] (by norm_num [USIZE])

/-- C5: `len` after `add` grows by exactly 1; a `pop` on a non-empty heap
returns a present value and shrinks `len` by exactly 1; `pop` on an empty
heap returns absent and leaves the heap (hence its length, 0) unchanged. -/
theorem c5_size_conservation [Inhabited α] (h h2 : Heap α) (v w : α)
    (hne : h.len ≠ 0) (hz : h2.len = 0) :
    (h.add v).len = h.len + 1 ∧
    (h2.add w).len = h2.len + 1 ∧
    h.pop.1.isSome = true ∧
    h.pop.2.len + 1 = h.len ∧
    h2.pop = (none, h2) ∧
    h2.pop.2.len = 0 := by
  obtain ⟨items, comp⟩ := h
  obtain ⟨items2, comp2⟩ := h2
  have hit2 : items2 = [] := List.length_eq_zero.mp hz
  subst hit2
  have hene : items ≠ [] := by
    intro he
    apply hne
    rw [show Heap.len ⟨items, comp⟩ = items.length from rfl, he]
    rfl
  obtain ⟨m, hm, hmlen, hperm⟩ := popL_spec comp items hene
  refine ⟨?_, ?_, ?_, ?_, ?_, ?_⟩
  · show (addL comp items v).length = items.length + 1
    exact length_addL comp items v
  · show (addL comp2 [] w).length = 0 + 1
    rw [length_addL]
    rfl
  · show (popL comp items).1.isSome = true
    rw [hm]
    rfl
  · show (popL comp items).2.length + 1 = items.length
    rw [hm]
    exact hmlen
  · rfl
  · rfl

theorem c5_size_conservation_witness :
    (Heap.len (⟨[7, 9], cmpMin⟩ : Heap Nat) ≠ 0 ∧
      Heap.len (⟨[], cmpMin⟩ : Heap Nat) = 0) ∧
    ((Heap.add ⟨[7, 9], cmpMin⟩ 3).len = (⟨[7, 9], cmpMin⟩ : Heap Nat).len + 1 ∧
      (Heap.pop (⟨[7, 9], cmpMin⟩ : Heap Nat)).2.len + 1
        = (⟨[7, 9], cmpMin⟩ : Heap Nat).len ∧
      Heap.pop (⟨[], cmpMin⟩ : Heap Nat) = (none, ⟨[], cmpMin⟩)) := by
  have hc := c5_size_conservation (⟨[7, 9], cmpMin⟩ : Heap Nat)
    (⟨[], cmpMin⟩ : Heap Nat) 3 1 (by decide) rfl
  exact ⟨⟨by decide, rfl⟩, hc.1, hc.2.2.2.1, hc.2.2.2.2.1⟩

/-- C6: calling `pop` on an empty heap any number of times always returns
the absent value and leaves the heap — items and comparator — unchanged. -/
theorem c6_idempotent_empty_pop [Inhabited α] (h : Heap α) (hz : h.len = 0)
    (n : Nat) :
    (fun g : Heap α => g.pop.2)^[n] h = h ∧
      ((fun g : Heap α => g.pop.2)^[n] h).pop.1 = none ∧
      ((fun g : Heap α => g.pop.2)^[n] h).items = h.items ∧
      ((fun g : Heap α => g.pop.2)^[n] h).comparator = h.comparator := by
  obtain ⟨items, comp⟩ := h
  have hit : items = [] := List.length_eq_zero.mp hz
  subst hit
  have hfix : (fun g : Heap α => g.pop.2) ⟨[], comp⟩ = ⟨[], comp⟩ := rfl
  have hiter : (fun g : Heap α => g.pop.2)^[n] ⟨[], comp⟩ = ⟨[], comp⟩ :=
    Function.iterate_fixed hfix n
  rw [hiter]
  exact ⟨rfl, rfl, rfl, rfl⟩

theorem c6_idempotent_empty_pop_witness :
    (fun g : Heap Nat => g.pop.2)^[5] ⟨[], cmpMin⟩ = (⟨[], cmpMin⟩ : Heap Nat) ∧
      ((fun g : Heap Nat => g.pop.2)^[5] ⟨[], cmpMin⟩).pop.1 = none := by
  have hc := c6_idempotent_empty_pop (⟨[], cmpMin⟩ : Heap Nat) rfl 5
  exact ⟨hc.1, hc.2.1⟩

/-- C3: evidence for the degenerate bulk build.  For inputs of length `< 2`
the source computes `last_parent_idx = usize::MAX` via `wrapping_sub`, and
the inclusive-range loop `(0..=last_parent_idx).rev()` therefore performs
`2^64` `heapify_down` iterations instead of being skipped; the very first
iteration's `left_child_idx` computation `idx * 2 + 1` overflows `usize`
(a panic in an overflow-checked build).  For `len ≥ 2` the loop does start
at `floor(len/2) - 1` (here `len = 9` gives `3`, i.e. `4` iterations). -/
theorem c3_build_loop_not_skipped :
    last_parent_idx ([] : List Nat) = USIZE - 1 ∧
    last_parent_idx [(42 : Nat)] = USIZE - 1 ∧
    buildIterations ([] : List Nat) = 2 ^ 64 ∧
    buildIterations [(42 : Nat)] = 2 ^ 64 ∧
    left_child_idxDbg (last_parent_idx ([] : List Nat)) = none ∧
    last_parent_idx (List.range 9) = 9 / 2 - 1 ∧
    buildIterations (List.range 9) = 4 := by
  have h1 : last_parent_idx [(42 : Nat)] = USIZE - 1 := by
    rw [last_parent_idx]
    simp only [List.length_cons, List.length_nil]
    rw [Nat.mod_eq_of_lt (by norm_num [USIZE])]
    norm_num
  have h9 : last_parent_idx (List.range 9) = 3 := by
    rw [last_parent_idx]
    simp only [List.length_range]
    have : (9 : Nat) / 2 + (USIZE - 1) = USIZE + 3 := by
      have : (0 : Nat) < USIZE := by norm_num [USIZE]
      omega
    rw [this, Nat.add_mod_left, Nat.mod_eq_of_lt (by norm_num [USIZE])]
  refine ⟨last_parent_idx_nil, h1, ?_, ?_, ?_, ?_, ?_⟩
  · rw [buildIterations, last_parent_idx_nil]
    norm_num [USIZE]
  · rw [buildIterations, h1]
    norm_num [USIZE]
  · rw [last_parent_idx_nil]
    exact left_child_idxDbg_overflow
  · rw [h9]
  · rw [buildIterations, h9]

/-- C7 (counterexample): in an overflow-checked build, `from_vec` on the
empty vector panics — the first `heapify_down` call of the build loop, at
index `usize::MAX`, overflows in `left_child_idx` (`idx * 2 + 1`).  So a
sequence consisting of the single operation `from_vec(vec![])` does panic
from arithmetic, refuting the claim as stated. -/
theorem c7_from_vec_empty_panics_checked :
    from_vecDbg cmpMin ([] : List Nat) = none := by
  rw [from_vecDbg, build_heapDbg, last_parent_idx_nil]
  rw [build_loopDbg]
  rw [heapify_downDbg]
  rw [children_presentDbg, left_child_idxDbg_overflow]
  rfl

/-- C7 (amended): for every comparator that is a total function — strict
weak ordering or not — every sequence of `new`, `from_vec`, `add` and
`pop` operations performs only in-bounds element accesses: the
bounds-checked model returns `some` and agrees with the unchecked one.
(Under release (wrapping) arithmetic; the sole arithmetic overflow is the
`from_vec` degenerate-loop panic exhibited above.) -/
theorem c7_safety_in_bounds [Inhabited α] (cmp : α → α → Bool) (S : List α)
    (ops : List (HOp α)) :
    runOpsC (Heap.new cmp) ops = some (runOps (Heap.new cmp) ops) ∧
    build_heapC cmp S = some (build_heap cmp S) ∧
    runOpsC (Heap.from_vec S cmp) ops = some (runOps (Heap.from_vec S cmp) ops) :=
  ⟨runOpsC_spec _ ops, build_heapC_spec cmp S, runOpsC_spec _ ops⟩

theorem btree_new_pos (α : Type _) (bf : Nat) (hbf : 1 ≤ bf)
    (hov : 2 * bf < USIZE) :
    BTreeS.new α bf
      = some ⟨⟨[], []⟩, ⟨2 * bf, 2 * bf - 1, (2 * bf - 1) / 2⟩⟩ := by
  have hmul : usizeMul 2 bf = some (2 * bf) := by
    rw [usizeMul, if_pos hov]
  have hsub : usizeSub (2 * bf) 1 = some (2 * bf - 1) := by
    rw [usizeSub, if_pos (by omega)]
  have hnode : BNode.new (α := α) (2 * bf) none none = some ⟨[], []⟩ := by
    rw [BNode.new, hsub]
    rfl
  have hprops : BTreeProps.new (2 * bf)
      = some ⟨2 * bf, 2 * bf - 1, (2 * bf - 1) / 2⟩ := by
    rw [BTreeProps.new, hsub]
    rfl
  rw [BTreeS.new, hmul]
  simp only [Option.some_bind]
  rw [hnode]
  simp only [Option.some_bind]
  rw [hprops]
  rfl

/-- C8 (counterexample): at `branch_factor = 2^63` — a value `≥ 1` — the
degree computation `2 * branch_factor` overflows `usize`, so `BTree::new`
fails (debug build: multiply-overflow panic; release build: the degree
wraps to `0` and `Vec::with_capacity(0 - 1)` aborts) instead of
constructing a tree with `degree = 2 * branch_factor`. -/
theorem c8_btree_new_counterexample : BTreeS.new Nat (2 ^ 63) = none := by
  rw [BTreeS.new, usizeMul, if_neg (by norm_num [USIZE])]
  rfl

/-- C8 (amended): for every `branch_factor` with `1 ≤ branch_factor` and
`2 * branch_factor < 2^64` (so the `usize` degree computation does not
overflow), `BTree::new` yields a tree with `degree = 2 * branch_factor`,
`max_keys = degree - 1`, `mid_key_index = (degree - 1) / 2`, and a root
that is a leaf with no keys and no children. -/
theorem c8_btree_new (α : Type _) (bf : Nat) (hbf : 1 ≤ bf)
    (hov : 2 * bf < USIZE) :
    ∃ t : BTreeS α, BTreeS.new α bf = some t ∧
      t.props.degree = 2 * bf ∧
      t.props.max_keys = t.props.degree - 1 ∧
      t.props.mid_key_index = (t.props.degree - 1) / 2 ∧
      t.root.is_leaf = true ∧ t.root.keys = [] ∧ t.root.children = [] :=
  ⟨⟨⟨[], []⟩, ⟨2 * bf, 2 * bf - 1, (2 * bf - 1) / 2⟩⟩,
    btree_new_pos α bf hbf hov, rfl, rfl, rfl, rfl, rfl, rfl⟩

theorem c8_btree_new_witness :
    ((1 : Nat) ≤ 2 ∧ 2 * 2 < USIZE) ∧
      ∃ t : BTreeS Nat, BTreeS.new Nat 2 = some t ∧
      t.props.degree = 4 ∧ t.props.max_keys = 3 ∧ t.props.mid_key_index = 1 := by
  obtain ⟨t, h1, h2, h3, h4, -⟩ :=
    c8_btree_new Nat 2 (by norm_num) (by norm_num [USIZE])
  refine ⟨⟨by norm_num, by norm_num [USIZE]⟩, t, h1, ?_, ?_, ?_⟩
  · rw [h2]
  · rw [h3, h2]
  · rw [h4, h2]

/-- C9: for every non-empty heap reachable by `new`/`from_vec` and
`add`/`pop` with a strict-weak-ordering comparator, the first element
yielded by `iter()` is the root `items[0]`, and no stored element is
favoured over it by the comparator. -/
theorem c9_iter_head_min [Inhabited α] (cmp : α → α → Bool) (hswo : IsSWO cmp)
    (h0 : Heap α)
    (hstart : h0 = Heap.new cmp ∨ ∃ S, S.length < USIZE ∧ h0 = Heap.from_vec S cmp)
    (ops : List (HOp α)) (hne : (runOps h0 ops).items ≠ []) :
    (runOps h0 ops).iter.head? = some (getE (runOps h0 ops).items 0) ∧
    ∀ x ∈ (runOps h0 ops).iter,
      (runOps h0 ops).comparator x (getE (runOps h0 ops).items 0) = false := by
  have hinv := reachable_inv cmp hswo h0 hstart ops
  have hswo2 : IsSWO (runOps h0 ops).comparator := by
    rw [runOps_comparator]
    rcases hstart with h | ⟨S, -, h⟩ <;> rw [h] <;> exact hswo
  constructor
  · exact head?_eq_getE _ hne
  · intro x hx
    exact heapInv_root_min_mem hswo2 _ hinv x hx

theorem c9_iter_head_min_witness :
    (runOps (Heap.new (cmpMin : Nat → Nat → Bool)) [HOp.add 2]).iter.head?
        = some (getE (runOps (Heap.new (cmpMin : Nat → Nat → Bool))
            [HOp.add 2]).items 0) ∧
      ∀ x ∈ (runOps (Heap.new (cmpMin : Nat → Nat → Bool)) [HOp.add 2]).iter,
        (runOps (Heap.new (cmpMin : Nat → Nat → Bool)) [HOp.add 2]).comparator x
          (getE (runOps (Heap.new (cmpMin : Nat → Nat → Bool))
            [HOp.add 2]).items 0) = false := by
  have hne : (runOps (Heap.new (cmpMin : Nat → Nat → Bool)) [HOp.add 2]).items ≠ [] := by
    have hlen1 : (runOps (Heap.new (cmpMin : Nat → Nat → Bool))
        [HOp.add 2]).items.length = 1 := by
      show (addL cmpMin ([] : List Nat) 2).length = 1
      rw [length_addL]
      rfl
    intro he
    rw [he] at hlen1
    cases hlen1
  exact c9_iter_head_min cmpMin isSWO_cmpMin _ (Or.inl rfl) [HOp.add 2] hne

/-- C10: when `branch_factor = 0` the degree is `0` and the `degree - 1`
subtractions in `Node::new` and `BTreeProps::new` underflow, so
construction fails instead of returning a tree; and under the
precondition `branch_factor ≥ 1` that underflow branch is unreachable:
whenever the degree `2 * branch_factor` is actually computed (no
multiplication overflow), the subtraction `degree - 1` succeeds, and
construction succeeds whenever the degree fits in `usize`. -/
theorem c10_branch_factor_zero (α : Type _) :
    BTreeS.new α 0 = none ∧
    BNode.new (α := α) 0 none none = none ∧
    BTreeProps.new 0 = none ∧
    (∀ bf : Nat, 1 ≤ bf → ∀ d, usizeMul 2 bf = some d →
      (usizeSub d 1).isSome = true) ∧
    (∀ bf : Nat, 1 ≤ bf → 2 * bf < USIZE → (BTreeS.new α bf).isSome = true) := by
  have hsub : usizeSub 0 1 = none := by
    rw [usizeSub, if_neg (by omega)]
  have hmul0 : usizeMul 2 0 = some 0 := by
    rw [usizeMul, if_pos (by norm_num [USIZE])]
  refine ⟨?_, ?_, ?_, ?_, ?_⟩
  · rw [BTreeS.new, hmul0]
    simp only [Option.some_bind]
    rw [BNode.new, hsub]
    rfl
  · rw [BNode.new, hsub]
    rfl
  · rw [BTreeProps.new, hsub]
    rfl
  · intro bf hbf d hd
    rw [usizeMul] at hd
    by_cases hcond : 2 * bf < USIZE
    · rw [if_pos hcond] at hd
      have hdv : d = 2 * bf := (Option.some.inj hd).symm
      rw [hdv, usizeSub, if_pos (by omega)]
      rfl
    · rw [if_neg hcond] at hd
      cases hd
  · intro bf hbf hov
    rw [btree_new_pos α bf hbf hov]
    rfl

theorem c10_branch_factor_zero_witness :
    BTreeS.new Nat 0 = none ∧
      ((1 : Nat) ≤ 3 ∧ usizeMul 2 3 = some 6 ∧ (usizeSub 6 1).isSome = true) ∧
      (2 * 3 < USIZE ∧ (BTreeS.new Nat 3).isSome = true) := by
  have h := c10_branch_factor_zero Nat
  have hm : usizeMul 2 3 = some 6 := by
    rw [usizeMul, if_pos (by norm_num [USIZE])]
  refine ⟨h.1, ⟨by norm_num, hm, ?_⟩, ⟨by norm_num [USIZE], ?_⟩⟩
  · exact h.2.2.2.1 3 (by norm_num) 6 hm
  · exact h.2.2.2.2 3 (by norm_num) (by norm_num [USIZE])
